import Mathlib

set_option autoImplicit false

/-!
A verification development for the photosync reconciliation engine.

The Python source (photosync/syncer.py, photosync/local_store.py,
photosync/google_photos_api.py) is embedded shallowly:

* records of the durable photos map become the structure PhotoRec;
* the photos map (a Python dict, insertion ordered, unique keys) becomes an
  association list PhotosMap;
* the local file tree becomes a list of paths, a path being the list of its
  segments relative to the photo root folder (last segment = file name);
* the remote service becomes an oracle structure Remote: paginated query
  responses are lists of optional pages (a none models a non-200 response,
  after which the source breaks out of the pagination loop), item metadata is
  a function from media ids, uploads draw ids from an oracle function;
* timestamps are natural numbers (seconds); ISO-8601 parsing is out of scope,
  so creationTime fields hold the parsed timestamp directly;
* every remote or file-system mutation performed by a run is also recorded in
  an event trace, so that claims about what a run does (or does not do) can
  be stated on the trace.

Python string comparison (used by sorted() in _choose_local_folder) is
lexicographic on code points; it is embedded as charsLe on the character
lists, and Python str(n) for a counter as natRepr.
-/

namespace PhotoSync

/-! ## Python string order (code-point lexicographic) -/

/-- Lexicographic comparison of character lists by code point, mirroring
Python string comparison. -/
def charsLe : List Char → List Char → Bool
  | [], _ => true
  | _ :: _, [] => false
  | a :: as, b :: bs =>
      if a.toNat < b.toNat then true
      else if b.toNat < a.toNat then false
      else charsLe as bs

/-- Python string less-or-equal. -/
def strLe (a b : String) : Bool := charsLe a.data b.data

/-- The order predicate corresponding to strLe. -/
def StrRel (a b : String) : Prop := strLe a b = true

instance : DecidableRel StrRel := fun a b => inferInstanceAs (Decidable (_ = true))

theorem charsLe_total (x y : List Char) : charsLe x y = true ∨ charsLe y x = true := by
  induction x generalizing y with
  | nil => left; rfl
  | cons a as ih =>
    cases y with
    | nil => right; rfl
    | cons b bs =>
      by_cases hab : a.toNat < b.toNat
      · left; simp [charsLe, hab]
      · by_cases hba : b.toNat < a.toNat
        · right; simp [charsLe, hba]
        · have := ih bs
          rcases this with h | h
          · left; simp [charsLe, hab, hba, h]
          · right; simp [charsLe, hab, hba, h]

theorem charsLe_trans {x y z : List Char} (hxy : charsLe x y = true)
    (hyz : charsLe y z = true) : charsLe x z = true := by
  induction x generalizing y z with
  | nil => rfl
  | cons a as ih =>
    cases y with
    | nil => simp [charsLe] at hxy
    | cons b bs =>
      cases z with
      | nil => simp [charsLe] at hyz
      | cons c cs =>
        simp only [charsLe] at hxy hyz ⊢
        by_cases hab : a.toNat < b.toNat
        · by_cases hbc : b.toNat < c.toNat
          · simp [Nat.lt_trans hab hbc]
          · by_cases hcb : c.toNat < b.toNat
            · simp [charsLe, hbc, hcb] at hyz
            · have hbc' : b.toNat = c.toNat := Nat.le_antisymm (Nat.le_of_not_lt hcb) (Nat.le_of_not_lt hbc)
              simp [hbc' ▸ hab]
        · by_cases hba : b.toNat < a.toNat
          · simp [charsLe, hab, hba] at hxy
          · have hab' : a.toNat = b.toNat := Nat.le_antisymm (Nat.le_of_not_lt hba) (Nat.le_of_not_lt hab)
            simp only [charsLe, hab, hba, if_false, if_neg, ite_false] at hxy
            by_cases hbc : b.toNat < c.toNat
            · simp [hab' ▸ hbc]
            · by_cases hcb : c.toNat < b.toNat
              · simp [charsLe, hbc, hcb] at hyz
              · have hac : ¬ a.toNat < c.toNat := by omega
                have hca : ¬ c.toNat < a.toNat := by omega
                simp only [hac, hca, if_false, ite_false]
                simp only [charsLe, hbc, hcb, if_false, ite_false] at hyz
                simp [ih hxy hyz]

theorem charsLe_antisymm {x y : List Char} (hxy : charsLe x y = true)
    (hyx : charsLe y x = true) : x = y := by
  induction x generalizing y with
  | nil =>
    cases y with
    | nil => rfl
    | cons b bs => simp [charsLe] at hyx
  | cons a as ih =>
    cases y with
    | nil => simp [charsLe] at hxy
    | cons b bs =>
      simp only [charsLe] at hxy hyx
      by_cases hab : a.toNat < b.toNat
      · have : ¬ b.toNat < a.toNat := Nat.lt_asymm hab
        simp [charsLe, hab, this] at hyx
      · by_cases hba : b.toNat < a.toNat
        · simp [charsLe, hab, hba] at hxy
        · have hab' : a.toNat = b.toNat := Nat.le_antisymm (Nat.le_of_not_lt hba) (Nat.le_of_not_lt hab)
          have hc : a = b := by
            have := congrArg Char.ofNat hab'
            rwa [Char.ofNat_toNat, Char.ofNat_toNat] at this
          simp only [charsLe, hab, hba, if_false, ite_false] at hxy hyx
          rw [hc, ih hxy hyx]

instance : IsTotal String StrRel := ⟨fun a b => charsLe_total a.data b.data⟩

instance : IsTrans String StrRel := ⟨fun _ _ _ h1 h2 => charsLe_trans h1 h2⟩

instance : IsAntisymm String StrRel :=
  ⟨fun a b h1 h2 => String.ext (charsLe_antisymm h1 h2)⟩

/-- Python sorted() on a list of strings. -/
def pySorted (l : List String) : List String := List.insertionSort StrRel l

theorem pySorted_sorted (l : List String) : List.Sorted StrRel (pySorted l) :=
  List.sorted_insertionSort StrRel l

theorem pySorted_perm (l : List String) : (pySorted l).Perm l :=
  List.perm_insertionSort StrRel l

/-- Sorting is a function of the underlying multiset: permuted inputs sort
identically (this is what makes the album tie-break independent of insertion
order). -/
theorem pySorted_eq_of_perm {l l' : List String} (h : l.Perm l') :
    pySorted l = pySorted l' :=
  List.eq_of_perm_of_sorted
    (((pySorted_perm l).trans h).trans (pySorted_perm l').symm)
    (pySorted_sorted l) (pySorted_sorted l')

theorem pySorted_head_mem {l : List String} (h : l ≠ []) :
    (pySorted l).headD "" ∈ l := by
  cases hs : pySorted l with
  | nil =>
    exfalso
    have := pySorted_perm l
    rw [hs] at this
    exact h (this.nil_eq).symm
  | cons a t =>
    have ha : a ∈ pySorted l := by rw [hs]; exact List.mem_cons_self a t
    have := (pySorted_perm l).mem_iff.mp ha
    simpa [hs] using this

theorem pySorted_head_min {l : List String} {x : String} (hx : x ∈ l) :
    StrRel ((pySorted l).headD "") x := by
  cases hs : pySorted l with
  | nil =>
    exfalso
    have := (pySorted_perm l).symm.mem_iff.mp hx
    rw [hs] at this
    simp at this
  | cons a t =>
    have hx' : x ∈ a :: t := by
      rw [← hs]; exact (pySorted_perm l).symm.mem_iff.mp hx
    have hsorted := pySorted_sorted l
    rw [hs] at hsorted
    rcases List.mem_cons.mp hx' with h | h
    · subst h
      simpa using charsLe_total x.data x.data |>.elim id id
    · have := (List.sorted_cons.mp hsorted).1 x h
      simpa using this

/-! ## Decimal rendering of a counter (Python str(n)) -/

/-- Little-endian decimal digits of n, with explicit fuel (fuel at least n). -/
def natDigitsAux : Nat → Nat → List Nat
  | 0, _ => []
  | _ + 1, 0 => []
  | fuel + 1, n + 1 => ((n + 1) % 10) :: natDigitsAux fuel ((n + 1) / 10)

/-- Little-endian decimal digits of n. -/
def natDigits (n : Nat) : List Nat := natDigitsAux n n

/-- Value of a little-endian digit list. -/
def fromDigits : List Nat → Nat
  | [] => 0
  | d :: ds => d + 10 * fromDigits ds

theorem fromDigits_natDigitsAux (fuel n : Nat) (h : n ≤ fuel) :
    fromDigits (natDigitsAux fuel n) = n := by
  induction fuel generalizing n with
  | zero =>
    have : n = 0 := Nat.le_zero.mp h
    subst this; rfl
  | succ f ih =>
    cases n with
    | zero => rfl
    | succ m =>
      have hdiv : (m + 1) / 10 ≤ f := by
        have h1 : (m + 1) / 10 < m + 1 := Nat.div_lt_self (Nat.succ_pos m) (by omega)
        omega
      simp only [natDigitsAux, fromDigits, ih _ hdiv]
      omega

theorem fromDigits_natDigits (n : Nat) : fromDigits (natDigits n) = n :=
  fromDigits_natDigitsAux n n (Nat.le_refl n)

theorem natDigits_injective : Function.Injective natDigits := by
  intro a b h
  have := congrArg fromDigits h
  rwa [fromDigits_natDigits, fromDigits_natDigits] at this

theorem natDigitsAux_lt_ten (fuel n : Nat) :
    ∀ d ∈ natDigitsAux fuel n, d < 10 := by
  induction fuel generalizing n with
  | zero => intro d hd; simp [natDigitsAux] at hd
  | succ f ih =>
    cases n with
    | zero => intro d hd; simp [natDigitsAux] at hd
    | succ m =>
      intro d hd
      simp only [natDigitsAux, List.mem_cons] at hd
      rcases hd with h | h
      · subst h; exact Nat.mod_lt _ (by omega)
      · exact ih _ d h

/-- Decimal digit to character. -/
def digitChar : Nat → Char
  | 0 => '0' | 1 => '1' | 2 => '2' | 3 => '3' | 4 => '4'
  | 5 => '5' | 6 => '6' | 7 => '7' | 8 => '8' | 9 => '9'
  | _ => '*'

theorem digitChar_injOn {a b : Nat} (ha : a < 10) (hb : b < 10)
    (h : digitChar a = digitChar b) : a = b := by
  interval_cases a <;> interval_cases b <;> simp_all [digitChar]

/-- Python str(n) for a natural number. -/
def natRepr (n : Nat) : String :=
  if n = 0 then "0" else String.mk ((natDigits n).reverse.map digitChar)

theorem map_digitChar_inj {l1 l2 : List Nat} (h1 : ∀ d ∈ l1, d < 10)
    (h2 : ∀ d ∈ l2, d < 10) (h : l1.map digitChar = l2.map digitChar) :
    l1 = l2 := by
  induction l1 generalizing l2 with
  | nil => cases l2 with
    | nil => rfl
    | cons b bs => simp at h
  | cons a as ih =>
    cases l2 with
    | nil => simp at h
    | cons b bs =>
      simp only [List.map_cons, List.cons.injEq] at h
      have hd := digitChar_injOn (h1 a (List.mem_cons_self a as)) (h2 b (List.mem_cons_self b bs)) h.1
      have ht := ih (fun d hd => h1 d (List.mem_cons_of_mem a hd))
        (fun d hd => h2 d (List.mem_cons_of_mem b hd)) h.2
      rw [hd, ht]

/-- Decimal character back to its digit value. -/
def digitVal : Char → Nat
  | '0' => 0 | '1' => 1 | '2' => 2 | '3' => 3 | '4' => 4
  | '5' => 5 | '6' => 6 | '7' => 7 | '8' => 8 | '9' => 9
  | _ => 0

theorem digitVal_digitChar {d : Nat} (h : d < 10) : digitVal (digitChar d) = d := by
  interval_cases d <;> rfl

/-- Parse back the decimal rendering; a left inverse of natRepr. -/
def reprVal (s : String) : Nat := fromDigits ((s.data.map digitVal).reverse)

theorem reprVal_natRepr (n : Nat) : reprVal (natRepr n) = n := by
  by_cases hn : n = 0
  · subst hn; rfl
  · simp only [natRepr, if_neg hn, reprVal]
    have hmap : (((natDigits n).reverse.map digitChar).map digitVal) = (natDigits n).reverse := by
      rw [List.map_map]
      have : ∀ d ∈ (natDigits n).reverse, (digitVal ∘ digitChar) d = d := by
        intro d hd
        exact digitVal_digitChar (natDigitsAux_lt_ten n n d (List.mem_reverse.mp hd))
      calc ((natDigits n).reverse.map (digitVal ∘ digitChar))
          = (natDigits n).reverse.map id := List.map_congr_left this
        _ = (natDigits n).reverse := List.map_id _
    show fromDigits (((String.mk ((natDigits n).reverse.map digitChar)).data.map digitVal).reverse) = n
    simp only [String.data]
    rw [hmap, List.reverse_reverse, fromDigits_natDigits]

theorem natRepr_injective : Function.Injective natRepr := by
  intro a b h
  have := congrArg reprVal h
  rwa [reprVal_natRepr, reprVal_natRepr] at this

/-! ## Paths and file names

A local path is the list of its segments relative to LOCAL_PHOTOS_DIR; the
last segment is the file name. The file system is the list of paths of the
files that exist. -/

abbrev Path := List String

/-- File name of a path (its last segment). -/
def lastName (p : Path) : String := p.getLastD ""

/-- Replace the file name of a path (Python Path.with_name). -/
def withName (p : Path) (n : String) : Path := p.dropLast ++ [n]

/-- Python pathlib splitting of a file name into stem and suffix: the suffix
is the part of the name from the last dot on, provided that dot is neither
the first nor the last character; otherwise the suffix is empty. -/
def pySplitName (name : String) : String × String :=
  let cs := name.data
  let aLen := (cs.reverse.takeWhile (fun c => c ≠ '.')).length
  if aLen + 1 < cs.length ∧ 0 < aLen then
    (String.mk (cs.take (cs.length - aLen - 1)), String.mk (cs.drop (cs.length - aLen - 1)))
  else (name, "")

/-- Python Path.stem of a file name. -/
def pyStem (name : String) : String := (pySplitName name).1

/-- Python Path.suffix of a file name. -/
def pySuffix (name : String) : String := (pySplitName name).2

/-- ASCII lower-casing of a string (Python str.lower restricted to the ASCII
range, which covers every extension the source compares against). -/
def asciiLower (s : String) : String :=
  String.mk (s.data.map (fun c =>
    if 'A'.toNat ≤ c.toNat ∧ c.toNat ≤ 'Z'.toNat then Char.ofNat (c.toNat + 32) else c))

/-- The media-file extensions accepted by the push pass of
_upload_local_new_files. -/
def mediaSuffixes : List String :=
  [".jpg", ".jpeg", ".png", ".gif", ".heic", ".heif", ".raw", ".mp4", ".mov"]

/-- Whether a file name has one of the accepted media extensions
(suffix, lower-cased, among mediaSuffixes). -/
def isMediaName (name : String) : Bool :=
  mediaSuffixes.contains (asciiLower (pySuffix name))

/-- Disambiguated file name: base ++ "(" ++ k ++ ")" ++ ext, as built by
unique_filename in local_store.py. -/
def mkDisambName (base : String) (k : Nat) (ext : String) : String :=
  base ++ "(" ++ natRepr k ++ ")" ++ ext

theorem mkDisambName_inj (base ext : String) {k1 k2 : Nat}
    (h : mkDisambName base k1 ext = mkDisambName base k2 ext) : k1 = k2 := by
  have hd := congrArg String.data h
  simp only [mkDisambName, String.data_append, List.append_assoc] at hd
  have hd1 := List.append_cancel_left hd
  have hd2 := List.append_cancel_left hd1
  have hlen : (natRepr k1).data.length = (natRepr k2).data.length := by
    have := congrArg List.length hd2
    simp only [List.length_append] at this
    omega
  have := (List.append_inj hd2 hlen).1
  exact natRepr_injective (String.ext this)

theorem withName_inj (p : Path) {n1 n2 : String}
    (h : withName p n1 = withName p n2) : n1 = n2 := by
  have := List.append_cancel_left (h : p.dropLast ++ [n1] = p.dropLast ++ [n2])
  simpa using this

/-- The candidate path tried for counter k during disambiguation. -/
def disambCand (p : Path) (base ext : String) (k : Nat) : Path :=
  withName p (mkDisambName base k ext)

theorem disambCand_inj (p : Path) (base ext : String) {k1 k2 : Nat}
    (h : disambCand p base ext k1 = disambCand p base ext k2) : k1 = k2 :=
  mkDisambName_inj base ext (withName_inj p h)

/-- Among fs.length + 1 successive disambiguation candidates, at least one
names no existing file. -/
theorem exists_free_disambCand (fs : List Path) (p : Path) (base ext : String) (k : Nat) :
    ∃ j, j < fs.length + 1 ∧ disambCand p base ext (k + j) ∉ fs := by
  by_contra hall
  push_neg at hall
  have hmaps : ∀ j ∈ Finset.range (fs.length + 1),
      disambCand p base ext (k + j) ∈ fs.toFinset := by
    intro j hj
    rw [List.mem_toFinset]
    exact hall j (Finset.mem_range.mp hj)
  have hinj : Set.InjOn (fun j => disambCand p base ext (k + j))
      ↑(Finset.range (fs.length + 1)) := by
    intro a _ b _ hab
    have := disambCand_inj p base ext hab
    omega
  have hcard : ((Finset.range (fs.length + 1)).image
      (fun j => disambCand p base ext (k + j))).card = fs.length + 1 := by
    rw [Finset.card_image_of_injOn hinj, Finset.card_range]
  have hsub : (Finset.range (fs.length + 1)).image
      (fun j => disambCand p base ext (k + j)) ⊆ fs.toFinset := by
    intro x hx
    rcases Finset.mem_image.mp hx with ⟨j, hj, rfl⟩
    exact hmaps j hj
  have := Finset.card_le_card hsub
  have := List.toFinset_card_le fs
  omega

/-- Search loop of unique_filename: try counter values k, k+1, ... until a
candidate is free, with explicit fuel. -/
def findFreeAux (fs : List Path) (p : Path) (base ext : String) : Nat → Nat → Path
  | 0, k => disambCand p base ext k
  | fuel + 1, k =>
      let cand := disambCand p base ext k
      if cand ∈ fs then findFreeAux fs p base ext fuel (k + 1) else cand

theorem findFreeAux_spec (fs : List Path) (p : Path) (base ext : String) :
    ∀ fuel k, (∃ j, j < fuel ∧ disambCand p base ext (k + j) ∉ fs) →
    ∃ j, findFreeAux fs p base ext fuel k = disambCand p base ext (k + j) ∧
      disambCand p base ext (k + j) ∉ fs ∧
      ∀ i, i < j → disambCand p base ext (k + i) ∈ fs := by
  intro fuel
  induction fuel with
  | zero =>
    intro k ⟨j, hj, _⟩
    omega
  | succ f ih =>
    intro k ⟨j, hj, hfree⟩
    by_cases hc : disambCand p base ext k ∈ fs
    · have hj0 : j ≠ 0 := by
        intro h0
        rw [h0] at hfree
        simp at hfree
        exact hfree hc
      have : ∃ j', j' < f ∧ disambCand p base ext ((k + 1) + j') ∉ fs := by
        refine ⟨j - 1, by omega, ?_⟩
        have : (k + 1) + (j - 1) = k + j := by omega
        rw [this]; exact hfree
      rcases ih (k + 1) this with ⟨j', heq, hfree', hall⟩
      refine ⟨j' + 1, ?_, ?_, ?_⟩
      · simp only [findFreeAux, if_pos hc]
        rw [heq]
        congr 1
        omega
      · have : k + (j' + 1) = (k + 1) + j' := by omega
        rw [this]; exact hfree'
      · intro i hi
        cases i with
        | zero => simpa using hc
        | succ i' =>
          have : k + (i' + 1) = (k + 1) + i' := by omega
          rw [this]
          exact hall i' (by omega)
    · exact ⟨0, by simp [findFreeAux, hc], by simpa using hc, fun i hi => by omega⟩

/-- Model of unique_filename from local_store.py: if the path exists, append
a counter (1), (2), ... to the stem until a free name is found. -/
def uniqueFilename (p : Path) (fs : List Path) : Path :=
  if p ∈ fs then
    findFreeAux fs p (pyStem (lastName p)) (pySuffix (lastName p)) (fs.length + 1) 1
  else p

theorem uniqueFilename_eq_of_not_mem {p : Path} {fs : List Path} (h : p ∉ fs) :
    uniqueFilename p fs = p := by
  simp [uniqueFilename, h]

/-- When a collision occurs, unique_filename returns the candidate with the
least free counter value k ≥ 1, every smaller counter naming an existing
file. -/
theorem uniqueFilename_spec {p : Path} {fs : List Path} (h : p ∈ fs) :
    ∃ k, 1 ≤ k ∧
      uniqueFilename p fs = disambCand p (pyStem (lastName p)) (pySuffix (lastName p)) k ∧
      disambCand p (pyStem (lastName p)) (pySuffix (lastName p)) k ∉ fs ∧
      ∀ i, 1 ≤ i → i < k →
        disambCand p (pyStem (lastName p)) (pySuffix (lastName p)) i ∈ fs := by
  have hex := exists_free_disambCand fs p (pyStem (lastName p)) (pySuffix (lastName p)) 1
  rcases findFreeAux_spec fs p (pyStem (lastName p)) (pySuffix (lastName p))
    (fs.length + 1) 1 hex with ⟨j, heq, hfree, hall⟩
  refine ⟨1 + j, by omega, ?_, hfree, ?_⟩
  · simpa [uniqueFilename, h] using heq
  · intro i h1 hik
    have := hall (i - 1) (by omega)
    have hi : 1 + (i - 1) = i := by omega
    rwa [hi] at this

theorem uniqueFilename_not_mem (p : Path) (fs : List Path) :
    uniqueFilename p fs ∉ fs := by
  by_cases h : p ∈ fs
  · rcases uniqueFilename_spec h with ⟨k, _, heq, hfree, _⟩
    rw [heq]; exact hfree
  · rw [uniqueFilename_eq_of_not_mem h]; exact h

/-- Deletion of a local file (delete_local_file): the path, if present, is
removed from the file system. -/
def deleteLocalFile (fs : List Path) (p : Path) : List Path :=
  fs.filter (fun q => q ≠ p)

/-- Move of a local file (move_local_file): a no-op when the source is
missing; otherwise the destination is disambiguated if it already exists and
the file changes path. Returns the new file system and the performed move. -/
def moveLocalFile (oldP newP : Path) (fs : List Path) : List Path × Option (Path × Path) :=
  if oldP ∈ fs then
    let tgt := if newP ∈ fs then uniqueFilename newP fs else newP
    ((fs.filter (fun q => q ≠ oldP)) ++ [tgt], some (oldP, tgt))
  else (fs, none)

/-! ## Data model: item records, the photos map, the remote oracle -/

/-- One record of the photos map (one entry of photos_map.json). A record
created by an upload has no creationTime key; that is modelled by none. -/
structure PhotoRec where
  filename : String
  localFolder : String
  isStarred : Bool
  inLastNDays : Bool
  albums : List String
  creationTime : Option Nat
deriving DecidableEq, Repr

/-- A media item as returned by the remote service: identifier, filename,
optional capture timestamp, and whether a baseUrl for download is present. -/
structure Item where
  id : String
  filename : String
  creationTime : Option Nat
  hasBaseUrl : Bool
deriving DecidableEq, Repr

/-- The photos map: a Python dict keyed by media id, i.e. an insertion
ordered association list with unique keys. -/
abbrev PhotosMap := List (String × PhotoRec)

/-- Unique keys of the photos map (a Python dict cannot have duplicates). -/
def NodupKeys (m : PhotosMap) : Prop := (m.map (fun pr => pr.1)).Nodup

instance (m : PhotosMap) : Decidable (NodupKeys m) :=
  inferInstanceAs (Decidable (List.Nodup _))

/-- Path of a record's folder and file name (compute_local_path): an empty
localFolder means the top-level folder. -/
def mkPath (folder name : String) : Path :=
  if folder ≠ "" then [folder, name] else [name]

/-- Path of a record's local file (compute_local_path on a record). -/
def computeLocalPath (rec : PhotoRec) : Path :=
  mkPath rec.localFolder rec.filename

/-- The retention predicate of cleanup_local and of the fetch pass:
a record keeps (or obtains) a local copy iff it is starred, in the last N
days, or in at least one album. -/
def needLocalCopy (rec : PhotoRec) : Bool :=
  rec.isStarred || rec.inLastNDays || !rec.albums.isEmpty

/-- Placement resolver _choose_local_folder: first album in alphabetical
order when albums is non-empty, else the top-level folder. -/
def chooseLocalFolder (rec : PhotoRec) : String :=
  if !rec.albums.isEmpty then (pySorted rec.albums).headD ""
  else if rec.isStarred || rec.inLastNDays then ""
  else ""

/-- The remote service oracle. Paginated query responses are lists of pages;
a none page models a non-200 response from search_media_items (after which
the source breaks out of its pagination loop). -/
structure Remote where
  starredPages : List (Option (List Item))
  lastNPages : List (Option (List Item))
  albumsDir : List (String × String)
  albumPages : String → List (Option (List Item))
  meta : String → Option Item
  downloadOk : String → Bool
  uploadId : Path → Option String

/-- Remote or file-system mutations performed by a run. -/
inductive Event where
  | downloaded : Path → Event
  | uploaded : Path → String → Event
  | moved : Path → Path → Event
  | fileDeleted : Path → Event
  | albumLinked : String → String → Event
deriving DecidableEq, Repr

/-- The whole mutable state threaded through a run: the photos map, the
local file system, the remote service, the per-run album-title cache, and
the event trace of the run. -/
structure St where
  m : PhotosMap
  fs : List Path
  r : Remote
  cache : List (String × String)
  tr : List Event

/-- Static configuration: current time, trailing-window length in days, and
the configured album titles. -/
structure Config where
  now : Nat
  days : Nat
  albums : List String

/-- The cutoff timestamp now - days, as computed by
recheck_inLastNDays_for_existing (seconds, one day = 86400). -/
def Config.cutoff (cfg : Config) : Nat := cfg.now - cfg.days * 86400

/-! ## Tag gatherer -/

/-- Items accumulated by a pagination loop: pages are consumed in order and
the loop breaks at the first failed (none) page. -/
def collectPages : List (Option (List Item)) → List Item
  | [] => []
  | none :: _ => []
  | some its :: rest => its ++ collectPages rest

/-- Model of _update_photos_map_entry: create the record if absent
(populating creationTime from the item), then refresh the filename and merge
the given tags. -/
def updatePhotosMapEntry (m : PhotosMap) (it : Item)
    (isStarred inLastNDays : Bool) (albumTitle : Option String) : PhotosMap :=
  let m1 := if m.any (fun pr => pr.1 = it.id) then m
            else m ++ [(it.id,
              { filename := it.filename, localFolder := "", isStarred := false,
                inLastNDays := false, albums := [], creationTime := it.creationTime })]
  m1.map (fun pr =>
    if pr.1 = it.id then
      (pr.1,
        { pr.2 with
          filename := it.filename,
          isStarred := pr.2.isStarred || isStarred,
          inLastNDays := pr.2.inLastNDays || inLastNDays,
          albums := match albumTitle with
            | some t => if pr.2.albums.contains t then pr.2.albums else pr.2.albums ++ [t]
            | none => pr.2.albums })
    else pr)

/-- Model of recheck_inLastNDays_for_existing: recompute inLastNDays from the
stored creationTime against the cutoff; records without a stored
creationTime are skipped. Purely local: the remote service is not consulted. -/
def recheckInLastNDaysForExisting (cfg : Config) (s : St) : St :=
  { s with m := s.m.map (fun pr =>
      match pr.2.creationTime with
      | none => pr
      | some c => (pr.1, { pr.2 with inLastNDays := decide (c ≥ cfg.cutoff) })) }

/-- Model of gather_is_starred: tag every item of the collected favorites
result as starred (creating records as needed), then clear isStarred on
every record absent from the collected id set. -/
def gatherIsStarred (s : St) : St :=
  let items := collectPages s.r.starredPages
  let ids := items.map (fun it => it.id)
  let m1 := items.foldl (fun m it => updatePhotosMapEntry m it true false none) s.m
  let m2 := m1.map (fun pr =>
    if pr.2.isStarred && !(ids.contains pr.1) then
      (pr.1, { pr.2 with isStarred := false })
    else pr)
  { s with m := m2 }

/-- Model of gather_last_n_days / _search_and_tag: tag every item of the
collected date-range result as inLastNDays (creating records as needed).
There is no negative pass for this tag. -/
def gatherLastNDays (s : St) : St :=
  let items := collectPages s.r.lastNPages
  { s with m := items.foldl (fun m it => updatePhotosMapEntry m it false true none) s.m }

/-- Album title resolution (_get_album_id_by_title) against the remote album
directory. -/
def resolveAlbumId (r : Remote) (title : String) : Option String :=
  (r.albumsDir.find? (fun ab => ab.1 = title)).map (fun ab => ab.2)

/-- Model of gather_album for one configured title: resolve the title (an
unresolved title is a no-op), cache it, tag every item of the collected
album result with the title, then remove the title from every record absent
from the collected id set. -/
def gatherAlbum (s : St) (title : String) : St :=
  match resolveAlbumId s.r title with
  | none => s
  | some aid =>
    let cache1 := if s.cache.any (fun ab => ab.1 = title) then s.cache
                  else s.cache ++ [(title, aid)]
    let items := collectPages (s.r.albumPages aid)
    let ids := items.map (fun it => it.id)
    let m1 := items.foldl (fun m it => updatePhotosMapEntry m it false false (some title)) s.m
    let m2 := m1.map (fun pr =>
      if pr.2.albums.contains title && !(ids.contains pr.1) then
        (pr.1, { pr.2 with albums := pr.2.albums.erase title })
      else pr)
    { s with m := m2, cache := cache1 }

/-- All configured albums are gathered in configuration order. -/
def gatherAlbums (cfg : Config) (s : St) : St :=
  cfg.albums.foldl gatherAlbum s

/-! ## Reconciliation engine -/

/-- Model of add_media_item_to_album: the remote album gains the item (it
shows up as one more page of the album's search results). Linking an id the
remote does not know fails and changes nothing. -/
def addMediaItemToAlbum (r : Remote) (aid mid : String) : Remote :=
  match r.meta mid with
  | none => r
  | some it =>
    { r with albumPages := fun a =>
        if a = aid then r.albumPages a ++ [some [it]] else r.albumPages a }

/-- Model of _download_if_needed: fetch the item, and if it has a baseUrl and
the transfer succeeds, write the bytes at the record's current path,
disambiguated if that path already exists. The record itself (in particular
its filename field) is not touched. -/
def downloadIfNeeded (mid : String) (rec : PhotoRec) (s : St) : St :=
  match s.r.meta mid with
  | none => s
  | some it =>
    if it.hasBaseUrl then
      if s.r.downloadOk mid then
        let lp := computeLocalPath rec
        let lp := if lp ∈ s.fs then uniqueFilename lp s.fs else lp
        { s with fs := s.fs ++ [lp], tr := s.tr ++ [Event.downloaded lp] }
      else s
    else s

/-- Step 1 of reconcile_local_changes: download every retained record whose
current on-disk file is absent. -/
def downloadMissing (s : St) : St :=
  s.m.foldl (fun acc pr =>
    if needLocalCopy pr.2 && !(acc.fs.contains (computeLocalPath pr.2)) then
      downloadIfNeeded pr.1 pr.2 acc
    else acc) s

/-- Model of _handle_new_local_file: upload the file; on success create (or
re-point) the record with the folder the file was physically found in (first
path segment, or the top-level folder), and if that folder is a cached album
title, link the item to the album remotely and add the title to the record. -/
def handleNewLocalFile (p : Path) (s : St) : St :=
  match s.r.uploadId p with
  | none => s
  | some mid =>
    let upItem : Item :=
      { id := mid, filename := lastName p, creationTime := none, hasBaseUrl := true }
    let r1 := { s.r with meta := fun x => if x = mid then some upItem else s.r.meta x }
    let folder := if p.length > 1 then p.headD "" else ""
    let m1 := if s.m.any (fun pr => pr.1 = mid) then
        s.m.map (fun pr =>
          if pr.1 = mid then (pr.1, { pr.2 with localFolder := folder }) else pr)
      else s.m ++ [(mid,
        { filename := lastName p, localFolder := folder, isStarred := false,
          inLastNDays := false, albums := [], creationTime := none })]
    let s1 := { s with m := m1, r := r1, tr := s.tr ++ [Event.uploaded p mid] }
    if folder ≠ "" then
      match s1.cache.find? (fun ab => ab.1 = folder) with
      | some ab =>
        let r2 := addMediaItemToAlbum s1.r ab.2 mid
        let m2 := s1.m.map (fun pr =>
          if pr.1 = mid && !(pr.2.albums.contains folder) then
            (pr.1, { pr.2 with albums := pr.2.albums ++ [folder] })
          else pr)
        { s1 with m := m2, r := r2, tr := s1.tr ++ [Event.albumLinked ab.2 mid] }
      | none => s1
    else s1

/-- Model of _ensure_album_membership: for every record whose localFolder is
a cached album title it does not yet carry, link the item remotely and add
the title. -/
def ensureAlbumMembership (s : St) : St :=
  s.m.foldl (fun acc pr =>
    if pr.2.localFolder ≠ "" then
      match acc.cache.find? (fun ab => ab.1 = pr.2.localFolder) with
      | some ab =>
        if pr.2.albums.contains pr.2.localFolder then acc
        else
          { acc with
            m := acc.m.map (fun q =>
              if q.1 = pr.1 then
                (q.1, { q.2 with albums := q.2.albums ++ [pr.2.localFolder] })
              else q),
            r := addMediaItemToAlbum acc.r ab.2 pr.1,
            tr := acc.tr ++ [Event.albumLinked ab.2 pr.1] }
      | none => acc
    else acc) s

/-- Step 2 of reconcile_local_changes (_upload_local_new_files): every file
with a media extension not at any record's computed path is treated as new
and uploaded; afterwards album membership is reconciled from folders. -/
def uploadLocalNewFiles (s : St) : St :=
  let known := s.m.map (fun pr => computeLocalPath pr.2)
  let s1 := s.fs.foldl (fun acc p =>
    if isMediaName (lastName p) then
      if known.contains p then acc else handleNewLocalFile p acc
    else acc) s
  ensureAlbumMembership s1

/-- Step 3 of reconcile_local_changes (_sync_local_file_paths): for every
record whose chosen folder differs from its current one, move the file and
update localFolder. -/
def syncLocalFilePaths (s : St) : St :=
  s.m.foldl (fun acc pr =>
    let newFolder := chooseLocalFolder pr.2
    if newFolder ≠ pr.2.localFolder then
      let oldP := mkPath pr.2.localFolder pr.2.filename
      let newP := mkPath newFolder pr.2.filename
      let mv := moveLocalFile oldP newP acc.fs
      { acc with
        fs := mv.1,
        tr := match mv.2 with
          | some od => acc.tr ++ [Event.moved od.1 od.2]
          | none => acc.tr,
        m := acc.m.map (fun q =>
          if q.1 = pr.1 then (q.1, { q.2 with localFolder := newFolder }) else q) }
    else acc) s

/-- Model of reconcile_local_changes: download missing, upload new local
files, then move files whose folder changed. -/
def reconcileLocalChanges (s : St) : St :=
  syncLocalFilePaths (uploadLocalNewFiles (downloadMissing s))

/-! ## Pruner -/

/-- One deletion of cleanup_local: look the id up, delete the file at the
record's computed path if present, drop the record. -/
def cleanupStep (acc : St) (mid : String) : St :=
  match acc.m.find? (fun pr => pr.1 = mid) with
  | none => acc
  | some pr =>
    let lp := computeLocalPath pr.2
    { acc with
      fs := deleteLocalFile acc.fs lp,
      tr := if lp ∈ acc.fs then acc.tr ++ [Event.fileDeleted lp] else acc.tr,
      m := acc.m.filter (fun q => q.1 ≠ mid) }

/-- Model of cleanup_local: every record failing the retention predicate is
removed from the map and its file at its computed path is deleted if
present. -/
def cleanupLocal (s : St) : St :=
  ((s.m.filter (fun pr => !(needLocalCopy pr.2))).map (fun pr => pr.1)).foldl cleanupStep s

/-! ## The full pipeline -/

/-- One full run, in the order driven by main.py: recheck the window, gather
favorites, gather the last N days, gather the configured albums, reconcile,
clean up. The per-run album cache and the event trace start empty. -/
def runPipeline (cfg : Config) (s : St) : St :=
  cleanupLocal
    (reconcileLocalChanges
      (gatherAlbums cfg
        (gatherLastNDays
          (gatherIsStarred
            (recheckInLastNDaysForExisting cfg { s with cache := [], tr := [] })))))

/-- A remote service with no content, used by concrete scenarios. -/
def emptyRemote : Remote :=
  { starredPages := [], lastNPages := [], albumsDir := [],
    albumPages := fun _ => [], meta := fun _ => none,
    downloadOk := fun _ => false, uploadId := fun _ => none }

/-! ## Association-list lemmas for the photos map -/

theorem find?_eq_of_mem_nodupKeys {m : PhotosMap} (hn : NodupKeys m) {mid : String}
    {rec : PhotoRec} (hmem : (mid, rec) ∈ m) :
    m.find? (fun pr => pr.1 = mid) = some (mid, rec) := by
  induction m with
  | nil => simp at hmem
  | cons hd tl ih =>
    simp only [NodupKeys, List.map_cons, List.nodup_cons] at hn
    rcases List.mem_cons.mp hmem with h | h
    · subst h
      exact List.find?_cons_of_pos _ (by simp)
    · have hkey : mid ∈ tl.map (fun pr => pr.1) := List.mem_map.mpr ⟨(mid, rec), h, rfl⟩
      have hne : ¬(hd.1 = mid) := fun he => hn.1 (he ▸ hkey)
      rw [List.find?_cons_of_neg _ (by simpa using hne)]
      exact ih hn.2 h

theorem value_eq_of_mem_nodupKeys {m : PhotosMap} (hn : NodupKeys m) {mid : String}
    {r1 r2 : PhotoRec} (h1 : (mid, r1) ∈ m) (h2 : (mid, r2) ∈ m) : r1 = r2 := by
  have e1 := find?_eq_of_mem_nodupKeys hn h1
  have e2 := find?_eq_of_mem_nodupKeys hn h2
  rw [e1] at e2
  simpa using e2

theorem nodupKeys_filter {m : PhotosMap} (p : String × PhotoRec → Bool)
    (hn : NodupKeys m) : NodupKeys (m.filter p) :=
  List.Nodup.sublist ((List.filter_sublist m).map _) hn

/-! ## Characterization of the pruning pass -/

theorem cleanupStep_fold_spec :
    ∀ (rm : List String) (s : St), NodupKeys s.m → rm.Nodup →
    (∀ mid ∈ rm, ∃ rec, (mid, rec) ∈ s.m) →
    (rm.foldl cleanupStep s).m = s.m.filter (fun pr => !(decide (pr.1 ∈ rm))) ∧
    (rm.foldl cleanupStep s).fs = s.fs.filter
      (fun p => decide (∀ pr ∈ s.m, pr.1 ∈ rm → p ≠ computeLocalPath pr.2)) := by
  intro rm
  induction rm with
  | nil =>
    intro s _ _ _
    constructor
    · simp
    · simp
  | cons mid rest ih =>
    intro s hn hrm hsub
    obtain ⟨rec, hrec⟩ := hsub mid (List.mem_cons_self mid rest)
    simp only [List.nodup_cons] at hrm
    have hfind : s.m.find? (fun pr => pr.1 = mid) = some (mid, rec) :=
      find?_eq_of_mem_nodupKeys hn hrec
    have hstep : cleanupStep s mid =
        { s with
          fs := deleteLocalFile s.fs (computeLocalPath rec),
          tr := if computeLocalPath rec ∈ s.fs
                then s.tr ++ [Event.fileDeleted (computeLocalPath rec)] else s.tr,
          m := s.m.filter (fun q => q.1 ≠ mid) } := by
      simp only [cleanupStep, hfind]
    have hfold : (mid :: rest).foldl cleanupStep s = rest.foldl cleanupStep (cleanupStep s mid) := rfl
    set s1 : St :=
      { s with
        fs := deleteLocalFile s.fs (computeLocalPath rec),
        tr := if computeLocalPath rec ∈ s.fs
              then s.tr ++ [Event.fileDeleted (computeLocalPath rec)] else s.tr,
        m := s.m.filter (fun q => q.1 ≠ mid) } with hs1
    have hn1 : NodupKeys s1.m := nodupKeys_filter _ hn
    have hsub1 : ∀ mid' ∈ rest, ∃ rec', (mid', rec') ∈ s1.m := by
      intro mid' hmid'
      obtain ⟨rec', hrec'⟩ := hsub mid' (List.mem_cons_of_mem mid hmid')
      refine ⟨rec', ?_⟩
      rw [hs1]
      simp only [List.mem_filter]
      have : mid' ≠ mid := fun he => hrm.1 (he ▸ hmid')
      exact ⟨hrec', by simpa using this⟩
    obtain ⟨ihm, ihfs⟩ := ih s1 hn1 hrm.2 hsub1
    rw [hfold, hstep]
    constructor
    · rw [ihm]
      simp only [hs1]
      simp only [List.filter_filter]
      apply List.filter_congr
      intro pr _
      have : (pr.1 ∈ mid :: rest) ↔ (pr.1 = mid ∨ pr.1 ∈ rest) := List.mem_cons
      rw [show (decide (pr.1 ∈ mid :: rest)) = decide (pr.1 = mid ∨ pr.1 ∈ rest) from
        decide_eq_decide.mpr this]
      rw [Bool.decide_or, Bool.not_or]
      have hne : (decide (pr.1 ≠ mid)) = !(decide (pr.1 = mid)) := decide_not
      rw [Bool.and_comm]
      rw [hne]
    · rw [ihfs]
      simp only [hs1]
      simp only [deleteLocalFile, List.filter_filter]
      apply List.filter_congr
      intro p _
      have lhs_iff : ((∀ pr ∈ s.m.filter (fun q => q.1 ≠ mid), pr.1 ∈ rest →
          p ≠ computeLocalPath pr.2) ∧ p ≠ computeLocalPath rec) ↔
          (∀ pr ∈ s.m, pr.1 ∈ mid :: rest → p ≠ computeLocalPath pr.2) := by
        constructor
        · rintro ⟨hall, hlp⟩ pr hpr hkey
          rcases List.mem_cons.mp hkey with hk | hk
          · have hv : pr.2 = rec := by
              have hpr' : (mid, pr.2) ∈ s.m := by
                have he : pr = (pr.1, pr.2) := rfl
                rw [he, hk] at hpr
                exact hpr
              exact value_eq_of_mem_nodupKeys hn hpr' hrec
            rw [hv]
            exact hlp
          · apply hall pr ?_ hk
            simp only [List.mem_filter]
            refine ⟨hpr, ?_⟩
            have : pr.1 ≠ mid := fun he => hrm.1 (he ▸ hk)
            simpa using this
        · intro hall
          constructor
          · intro pr hpr hkey
            exact hall pr (List.mem_filter.mp hpr).1 (List.mem_cons_of_mem mid hkey)
          · exact hall (mid, rec) hrec (List.mem_cons_self mid rest)
      rw [← Bool.decide_and]
      exact decide_eq_decide.mpr lhs_iff

theorem cleanupLocal_m_spec (s : St) (hn : NodupKeys s.m) :
    (cleanupLocal s).m = s.m.filter (fun pr => needLocalCopy pr.2) := by
  have hrmnodup : ((s.m.filter (fun pr => !(needLocalCopy pr.2))).map (fun pr => pr.1)).Nodup :=
    nodupKeys_filter _ hn
  have hsub : ∀ mid ∈ (s.m.filter (fun pr => !(needLocalCopy pr.2))).map (fun pr => pr.1),
      ∃ rec, (mid, rec) ∈ s.m := by
    intro mid hmid
    rcases List.mem_map.mp hmid with ⟨pr, hpr, hpr1⟩
    exact ⟨pr.2, by rw [← hpr1]; exact (List.mem_filter.mp hpr).1⟩
  have := (cleanupStep_fold_spec _ s hn hrmnodup hsub).1
  rw [cleanupLocal, this]
  apply List.filter_congr
  intro pr hpr
  have hmem_iff : (pr.1 ∈ (s.m.filter (fun q => !(needLocalCopy q.2))).map (fun q => q.1)) ↔
      needLocalCopy pr.2 = false := by
    constructor
    · intro hk
      rcases List.mem_map.mp hk with ⟨q, hq, hq1⟩
      obtain ⟨hqm, hqkeep⟩ := List.mem_filter.mp hq
      have hv : q.2 = pr.2 := by
        apply value_eq_of_mem_nodupKeys hn
        · rw [show (pr.1, q.2) = q from by rw [← hq1]]
          exact hqm
        · exact hpr
      rw [← hv]
      simpa using hqkeep
    · intro hkeep
      exact List.mem_map.mpr ⟨pr, List.mem_filter.mpr ⟨hpr, by simp [hkeep]⟩, rfl⟩
  rw [show (decide (pr.1 ∈ (s.m.filter (fun q => !(needLocalCopy q.2))).map (fun q => q.1))) =
    decide (needLocalCopy pr.2 = false) from decide_eq_decide.mpr hmem_iff]
  cases h : needLocalCopy pr.2 <;> simp [h]

theorem cleanupLocal_fs_spec (s : St) (hn : NodupKeys s.m) :
    (cleanupLocal s).fs = s.fs.filter
      (fun p => decide (∀ pr ∈ s.m, needLocalCopy pr.2 = false →
        p ≠ computeLocalPath pr.2)) := by
  have hrmnodup : ((s.m.filter (fun pr => !(needLocalCopy pr.2))).map (fun pr => pr.1)).Nodup :=
    nodupKeys_filter _ hn
  have hsub : ∀ mid ∈ (s.m.filter (fun pr => !(needLocalCopy pr.2))).map (fun pr => pr.1),
      ∃ rec, (mid, rec) ∈ s.m := by
    intro mid hmid
    rcases List.mem_map.mp hmid with ⟨pr, hpr, hpr1⟩
    exact ⟨pr.2, by rw [← hpr1]; exact (List.mem_filter.mp hpr).1⟩
  have := (cleanupStep_fold_spec _ s hn hrmnodup hsub).2
  rw [cleanupLocal, this]
  apply List.filter_congr
  intro p _
  apply decide_eq_decide.mpr
  constructor
  · intro hall pr hpr hkeep
    apply hall pr hpr
    exact List.mem_map.mpr ⟨pr, List.mem_filter.mpr ⟨hpr, by simp [hkeep]⟩, rfl⟩
  · intro hall pr hpr hkey
    rcases List.mem_map.mp hkey with ⟨q, hq, hq1⟩
    obtain ⟨hqm, hqkeep⟩ := List.mem_filter.mp hq
    have hv : q.2 = pr.2 := by
      apply value_eq_of_mem_nodupKeys hn
      · rw [show (pr.1, q.2) = q from by rw [← hq1]]
        exact hqm
      · exact hpr
    apply hall pr hpr
    rw [← hv]
    simpa using hqkeep

/-! ## Frame lemmas for the fetch pass -/

theorem downloadIfNeeded_m_eq (mid : String) (rec : PhotoRec) (s : St) :
    (downloadIfNeeded mid rec s).m = s.m := by
  unfold downloadIfNeeded
  cases s.r.meta mid with
  | none => rfl
  | some it =>
    by_cases h1 : it.hasBaseUrl = true
    · by_cases h2 : s.r.downloadOk mid = true
      · simp [h1, h2]
      · simp [h1, h2]
    · simp [h1]

theorem downloadIfNeeded_r_eq (mid : String) (rec : PhotoRec) (s : St) :
    (downloadIfNeeded mid rec s).r = s.r := by
  unfold downloadIfNeeded
  cases s.r.meta mid with
  | none => rfl
  | some it =>
    by_cases h1 : it.hasBaseUrl = true
    · by_cases h2 : s.r.downloadOk mid = true
      · simp [h1, h2]
      · simp [h1, h2]
    · simp [h1]

theorem downloadIfNeeded_cache_eq (mid : String) (rec : PhotoRec) (s : St) :
    (downloadIfNeeded mid rec s).cache = s.cache := by
  unfold downloadIfNeeded
  cases s.r.meta mid with
  | none => rfl
  | some it =>
    by_cases h1 : it.hasBaseUrl = true
    · by_cases h2 : s.r.downloadOk mid = true
      · simp [h1, h2]
      · simp [h1, h2]
    · simp [h1]

theorem downloadMissing_m_eq (s : St) : (downloadMissing s).m = s.m := by
  unfold downloadMissing
  have : ∀ (l : List (String × PhotoRec)) (acc : St), acc.m = s.m →
      (l.foldl (fun acc pr =>
        if needLocalCopy pr.2 && !(acc.fs.contains (computeLocalPath pr.2)) then
          downloadIfNeeded pr.1 pr.2 acc
        else acc) acc).m = s.m := by
    intro l
    induction l with
    | nil => intro acc h; exact h
    | cons hd tl ih =>
      intro acc h
      apply ih
      show (if (needLocalCopy hd.2 && !(acc.fs.contains (computeLocalPath hd.2))) = true
        then downloadIfNeeded hd.1 hd.2 acc else acc).m = s.m
      by_cases hc : (needLocalCopy hd.2 && !(acc.fs.contains (computeLocalPath hd.2))) = true
      · rw [if_pos hc, downloadIfNeeded_m_eq, h]
      · rw [if_neg hc]; exact h
  exact this s.m s rfl

/-! ## Key-preserving maps and per-key entries of the photos map -/

theorem map_eq_self_of {α : Type} {l : List α} {f : α → α}
    (h : ∀ x ∈ l, f x = x) : l.map f = l := by
  induction l with
  | nil => rfl
  | cons hd tl ih =>
    rw [List.map_cons, h hd (List.mem_cons_self hd tl), ih]
    intro x hx
    exact h x (List.mem_cons_of_mem hd hx)

theorem keys_map_of_keepKeys {m : PhotosMap} {g : String × PhotoRec → String × PhotoRec}
    (hg : ∀ pr, (g pr).1 = pr.1) :
    (m.map g).map (fun pr => pr.1) = m.map (fun pr => pr.1) := by
  rw [List.map_map]
  apply List.map_congr_left
  intro pr _
  exact hg pr

theorem nodupKeys_map {m : PhotosMap} {g : String × PhotoRec → String × PhotoRec}
    (hg : ∀ pr, (g pr).1 = pr.1) (hn : NodupKeys m) : NodupKeys (m.map g) := by
  unfold NodupKeys
  rw [keys_map_of_keepKeys hg]
  exact hn

/-- The entries of the photos map at one key (all of them, so that no
duplicate-key assumption is needed to reason about updates). -/
def entriesAt (mid : String) (m : PhotosMap) : PhotosMap :=
  m.filter (fun pr => pr.1 = mid)

theorem entriesAt_map_of_keepKeys {m : PhotosMap}
    {g : String × PhotoRec → String × PhotoRec}
    (hg : ∀ pr, (g pr).1 = pr.1) (mid : String) :
    entriesAt mid (m.map g) = (entriesAt mid m).map g := by
  unfold entriesAt
  induction m with
  | nil => rfl
  | cons hd tl ih =>
    rw [List.map_cons]
    by_cases h : hd.1 = mid
    · rw [List.filter_cons_of_pos (by simp [hg, h]), List.filter_cons_of_pos (by simp [h]),
        List.map_cons, ih]
    · rw [List.filter_cons_of_neg (by simp [hg, h]), List.filter_cons_of_neg (by simp [h]), ih]

theorem entriesAt_append (mid : String) (m1 m2 : PhotosMap) :
    entriesAt mid (m1 ++ m2) = entriesAt mid m1 ++ entriesAt mid m2 :=
  List.filter_append _ _

theorem entriesAt_eq_nil_of_not_key {m : PhotosMap} {mid : String}
    (h : ∀ pr ∈ m, pr.1 ≠ mid) : entriesAt mid m = [] := by
  unfold entriesAt
  rw [List.filter_eq_nil_iff]
  intro pr hpr
  simpa using h pr hpr

theorem entriesAt_eq_single {m : PhotosMap} {mid : String} {rec : PhotoRec}
    (hn : NodupKeys m) (hmem : (mid, rec) ∈ m) :
    entriesAt mid m = [(mid, rec)] := by
  induction m with
  | nil => simp at hmem
  | cons hd tl ih =>
    simp only [NodupKeys, List.map_cons, List.nodup_cons] at hn
    rcases List.mem_cons.mp hmem with h | h
    · subst h
      unfold entriesAt
      rw [List.filter_cons_of_pos (by simp)]
      congr 1
      have : ∀ pr ∈ tl, pr.1 ≠ mid := by
        intro pr hpr he
        exact hn.1 (he ▸ List.mem_map.mpr ⟨pr, hpr, rfl⟩)
      exact entriesAt_eq_nil_of_not_key this
    · have hne : hd.1 ≠ mid := by
        intro he
        exact hn.1 (he ▸ List.mem_map.mpr ⟨(mid, rec), h, rfl⟩)
      unfold entriesAt
      rw [List.filter_cons_of_neg (by simpa using hne)]
      exact ih hn.2 h

theorem mem_of_entriesAt_single {m : PhotosMap} {mid : String} {rec : PhotoRec}
    (h : entriesAt mid m = [(mid, rec)]) : (mid, rec) ∈ m := by
  have : (mid, rec) ∈ entriesAt mid m := by rw [h]; exact List.mem_singleton.mpr rfl
  exact (List.mem_filter.mp this).1

theorem key_entries_unique {m : PhotosMap} {mid : String} {rec : PhotoRec}
    (h : entriesAt mid m = [(mid, rec)]) :
    ∀ pr ∈ m, pr.1 = mid → pr = (mid, rec) := by
  intro pr hpr hkey
  have : pr ∈ entriesAt mid m := List.mem_filter.mpr ⟨hpr, by simpa using hkey⟩
  rw [h] at this
  exact List.mem_singleton.mp this

/-! ## Lemmas about _update_photos_map_entry -/

/-- The in-place transform applied by _update_photos_map_entry to the entry
of the item's id. -/
def tagUpdate (it : Item) (isStarred inLastNDays : Bool) (albumTitle : Option String) :
    (String × PhotoRec) → (String × PhotoRec) := fun pr =>
  if pr.1 = it.id then
    (pr.1,
      { pr.2 with
        filename := it.filename,
        isStarred := pr.2.isStarred || isStarred,
        inLastNDays := pr.2.inLastNDays || inLastNDays,
        albums := match albumTitle with
          | some t => if pr.2.albums.contains t then pr.2.albums else pr.2.albums ++ [t]
          | none => pr.2.albums })
  else pr

theorem tagUpdate_keepKeys (it : Item) (a b : Bool) (c : Option String) :
    ∀ pr, (tagUpdate it a b c pr).1 = pr.1 := by
  intro pr
  unfold tagUpdate
  by_cases h : pr.1 = it.id <;> simp [h]

theorem updatePhotosMapEntry_eq (m : PhotosMap) (it : Item) (a b : Bool) (c : Option String) :
    updatePhotosMapEntry m it a b c =
      (if m.any (fun pr => pr.1 = it.id) then m
       else m ++ [(it.id,
        { filename := it.filename, localFolder := "", isStarred := false,
          inLastNDays := false, albums := [], creationTime := it.creationTime })]).map
        (tagUpdate it a b c) := rfl

theorem nodupKeys_updatePhotosMapEntry (m : PhotosMap) (it : Item) (a b : Bool)
    (c : Option String) (hn : NodupKeys m) :
    NodupKeys (updatePhotosMapEntry m it a b c) := by
  rw [updatePhotosMapEntry_eq]
  apply nodupKeys_map (tagUpdate_keepKeys it a b c)
  by_cases h : m.any (fun pr => pr.1 = it.id)
  · rw [if_pos h]; exact hn
  · rw [if_neg h]
    unfold NodupKeys
    rw [List.map_append]
    simp only [List.map_cons, List.map_nil]
    rw [List.nodup_append]
    refine ⟨hn, List.nodup_singleton _, ?_⟩
    intro k hk
    simp only [List.mem_singleton]
    intro he
    subst he
    rcases List.mem_map.mp hk with ⟨pr, hpr, hpr1⟩
    apply h
    rw [List.any_eq_true]
    exact ⟨pr, hpr, by simpa using hpr1⟩

theorem entriesAt_updatePhotosMapEntry_ne (m : PhotosMap) (it : Item) (a b : Bool)
    (c : Option String) {mid : String} (hne : it.id ≠ mid) :
    entriesAt mid (updatePhotosMapEntry m it a b c) = entriesAt mid m := by
  rw [updatePhotosMapEntry_eq, entriesAt_map_of_keepKeys (tagUpdate_keepKeys it a b c)]
  have hbase : entriesAt mid (if m.any (fun pr => pr.1 = it.id) then m
      else m ++ [(it.id,
        { filename := it.filename, localFolder := "", isStarred := false,
          inLastNDays := false, albums := [], creationTime := it.creationTime })]) =
      entriesAt mid m := by
    by_cases h : m.any (fun pr => pr.1 = it.id)
    · rw [if_pos h]
    · rw [if_neg h, entriesAt_append]
      have hnil : entriesAt mid
          [(it.id, (⟨it.filename, "", false, false, [], it.creationTime⟩ : PhotoRec))] = [] := by
        apply entriesAt_eq_nil_of_not_key
        intro pr hpr
        rw [List.mem_singleton] at hpr
        subst hpr
        exact hne
      rw [hnil, List.append_nil]
  rw [hbase]
  apply map_eq_self_of
  intro pr hpr
  have hkey : pr.1 = mid := by simpa using (List.mem_filter.mp hpr).2
  unfold tagUpdate
  rw [if_neg (by rw [hkey]; exact fun h => hne h.symm)]

/-! ## Frame lemmas: what each pass leaves untouched -/

theorem gatherIsStarred_r (s : St) : (gatherIsStarred s).r = s.r := rfl

theorem gatherIsStarred_fs (s : St) : (gatherIsStarred s).fs = s.fs := rfl

theorem gatherIsStarred_cache (s : St) : (gatherIsStarred s).cache = s.cache := rfl

theorem gatherLastNDays_r (s : St) : (gatherLastNDays s).r = s.r := rfl

theorem gatherLastNDays_fs (s : St) : (gatherLastNDays s).fs = s.fs := rfl

theorem gatherAlbum_r (s : St) (t : String) : (gatherAlbum s t).r = s.r := by
  unfold gatherAlbum
  cases resolveAlbumId s.r t with
  | none => rfl
  | some aid => rfl

theorem gatherAlbum_fs (s : St) (t : String) : (gatherAlbum s t).fs = s.fs := by
  unfold gatherAlbum
  cases resolveAlbumId s.r t with
  | none => rfl
  | some aid => rfl

theorem gatherAlbums_r (cfg : Config) (s : St) : (gatherAlbums cfg s).r = s.r := by
  unfold gatherAlbums
  have : ∀ (l : List String) (acc : St), (l.foldl gatherAlbum acc).r = acc.r := by
    intro l
    induction l with
    | nil => intro acc; rfl
    | cons hd tl ih =>
      intro acc
      rw [List.foldl_cons, ih, gatherAlbum_r]
  exact this cfg.albums s

theorem gatherAlbums_fs (cfg : Config) (s : St) : (gatherAlbums cfg s).fs = s.fs := by
  unfold gatherAlbums
  have : ∀ (l : List String) (acc : St), (l.foldl gatherAlbum acc).fs = acc.fs := by
    intro l
    induction l with
    | nil => intro acc; rfl
    | cons hd tl ih =>
      intro acc
      rw [List.foldl_cons, ih, gatherAlbum_fs]
  exact this cfg.albums s

theorem downloadMissing_r (s : St) : (downloadMissing s).r = s.r := by
  unfold downloadMissing
  have : ∀ (l : List (String × PhotoRec)) (acc : St), acc.r = s.r →
      (l.foldl (fun acc pr =>
        if needLocalCopy pr.2 && !(acc.fs.contains (computeLocalPath pr.2)) then
          downloadIfNeeded pr.1 pr.2 acc
        else acc) acc).r = s.r := by
    intro l
    induction l with
    | nil => intro acc h; exact h
    | cons hd tl ih =>
      intro acc h
      apply ih
      show (if (needLocalCopy hd.2 && !(acc.fs.contains (computeLocalPath hd.2))) = true
        then downloadIfNeeded hd.1 hd.2 acc else acc).r = s.r
      by_cases hc : (needLocalCopy hd.2 && !(acc.fs.contains (computeLocalPath hd.2))) = true
      · rw [if_pos hc, downloadIfNeeded_r_eq, h]
      · rw [if_neg hc]; exact h
  exact this s.m s rfl

theorem downloadMissing_cache (s : St) : (downloadMissing s).cache = s.cache := by
  unfold downloadMissing
  have : ∀ (l : List (String × PhotoRec)) (acc : St), acc.cache = s.cache →
      (l.foldl (fun acc pr =>
        if needLocalCopy pr.2 && !(acc.fs.contains (computeLocalPath pr.2)) then
          downloadIfNeeded pr.1 pr.2 acc
        else acc) acc).cache = s.cache := by
    intro l
    induction l with
    | nil => intro acc h; exact h
    | cons hd tl ih =>
      intro acc h
      apply ih
      show (if (needLocalCopy hd.2 && !(acc.fs.contains (computeLocalPath hd.2))) = true
        then downloadIfNeeded hd.1 hd.2 acc else acc).cache = s.cache
      by_cases hc : (needLocalCopy hd.2 && !(acc.fs.contains (computeLocalPath hd.2))) = true
      · rw [if_pos hc, downloadIfNeeded_cache_eq, h]
      · rw [if_neg hc]; exact h
  exact this s.m s rfl

theorem addMediaItemToAlbum_uploadId (r : Remote) (aid mid : String) :
    (addMediaItemToAlbum r aid mid).uploadId = r.uploadId := by
  unfold addMediaItemToAlbum
  cases r.meta mid with
  | none => rfl
  | some it => rfl

theorem handleNewLocalFile_uploadId (p : Path) (s : St) :
    (handleNewLocalFile p s).r.uploadId = s.r.uploadId := by
  unfold handleNewLocalFile
  cases s.r.uploadId p with
  | none => rfl
  | some mid =>
    simp only
    by_cases hf : (if p.length > 1 then p.headD "" else "") ≠ ""
    · rw [if_pos hf]
      cases hc : (List.find? (fun ab => ab.1 = (if p.length > 1 then p.headD "" else "")) s.cache) with
      | none => rfl
      | some ab =>
        simp only [addMediaItemToAlbum_uploadId]
    · rw [if_neg hf]

theorem handleNewLocalFile_cache (p : Path) (s : St) :
    (handleNewLocalFile p s).cache = s.cache := by
  unfold handleNewLocalFile
  cases s.r.uploadId p with
  | none => rfl
  | some mid =>
    simp only
    by_cases hf : (if p.length > 1 then p.headD "" else "") ≠ ""
    · rw [if_pos hf]
      cases hc : (List.find? (fun ab => ab.1 = (if p.length > 1 then p.headD "" else "")) s.cache) with
      | none => rfl
      | some ab => rfl
    · rw [if_neg hf]

/-! ## NodupKeys is an invariant of every pass -/

theorem nodupKeys_posFold (items : List Item) (a b : Bool) (c : Option String) :
    ∀ m, NodupKeys m →
      NodupKeys (items.foldl (fun m it => updatePhotosMapEntry m it a b c) m) := by
  induction items with
  | nil => intro m hn; exact hn
  | cons hd tl ih =>
    intro m hn
    rw [List.foldl_cons]
    exact ih _ (nodupKeys_updatePhotosMapEntry m hd a b c hn)

theorem nodupKeys_recheck (cfg : Config) (s : St) (hn : NodupKeys s.m) :
    NodupKeys (recheckInLastNDaysForExisting cfg s).m := by
  apply nodupKeys_map ?_ hn
  intro pr
  cases pr.2.creationTime <;> simp

theorem nodupKeys_gatherIsStarred (s : St) (hn : NodupKeys s.m) :
    NodupKeys (gatherIsStarred s).m := by
  unfold gatherIsStarred
  apply nodupKeys_map
  · intro pr
    dsimp only
    split <;> rfl
  · exact nodupKeys_posFold _ _ _ _ _ hn

theorem nodupKeys_gatherLastNDays (s : St) (hn : NodupKeys s.m) :
    NodupKeys (gatherLastNDays s).m :=
  nodupKeys_posFold _ _ _ _ _ hn

theorem nodupKeys_gatherAlbum (s : St) (t : String) (hn : NodupKeys s.m) :
    NodupKeys (gatherAlbum s t).m := by
  unfold gatherAlbum
  cases resolveAlbumId s.r t with
  | none => exact hn
  | some aid =>
    simp only
    apply nodupKeys_map
    · intro pr
      dsimp only
      split <;> rfl
    · exact nodupKeys_posFold _ _ _ _ _ hn

theorem nodupKeys_gatherAlbums (cfg : Config) (s : St) (hn : NodupKeys s.m) :
    NodupKeys (gatherAlbums cfg s).m := by
  unfold gatherAlbums
  have : ∀ (l : List String) (acc : St), NodupKeys acc.m →
      NodupKeys ((l.foldl gatherAlbum acc).m) := by
    intro l
    induction l with
    | nil => intro acc h; exact h
    | cons hd tl ih =>
      intro acc h
      exact ih _ (nodupKeys_gatherAlbum acc hd h)
  exact this cfg.albums s hn

theorem nodupKeys_handleNewLocalFile (p : Path) (s : St) (hn : NodupKeys s.m) :
    NodupKeys (handleNewLocalFile p s).m := by
  unfold handleNewLocalFile
  cases s.r.uploadId p with
  | none => exact hn
  | some mid =>
    simp only
    have hm1 : NodupKeys (if s.m.any (fun pr => pr.1 = mid) then
        s.m.map (fun pr =>
          if pr.1 = mid then (pr.1, { pr.2 with localFolder :=
            (if p.length > 1 then p.headD "" else "") }) else pr)
      else s.m ++ [(mid,
        { filename := lastName p, localFolder := (if p.length > 1 then p.headD "" else ""),
          isStarred := false, inLastNDays := false, albums := [], creationTime := none })]) := by
      by_cases h : s.m.any (fun pr => pr.1 = mid)
      · rw [if_pos h]
        apply nodupKeys_map ?_ hn
        intro pr
        dsimp only
        split <;> rfl
      · rw [if_neg h]
        unfold NodupKeys
        rw [List.map_append]
        simp only [List.map_cons, List.map_nil]
        rw [List.nodup_append]
        refine ⟨hn, List.nodup_singleton _, ?_⟩
        intro k hk
        simp only [List.mem_singleton]
        intro he
        subst he
        rcases List.mem_map.mp hk with ⟨pr, hpr, hpr1⟩
        apply h
        rw [List.any_eq_true]
        exact ⟨pr, hpr, by simpa using hpr1⟩
    by_cases hf : (if p.length > 1 then p.headD "" else "") ≠ ""
    · rw [if_pos hf]
      cases hc : (List.find? (fun ab => ab.1 = (if p.length > 1 then p.headD "" else "")) s.cache) with
      | none =>
        exact hm1
      | some ab =>
        apply nodupKeys_map ?_ hm1
        intro pr
        dsimp only
        split <;> split <;> rfl
    · rw [if_neg hf]
      exact hm1

theorem nodupKeys_ensureAlbumMembership (s : St) (hn : NodupKeys s.m) :
    NodupKeys (ensureAlbumMembership s).m := by
  unfold ensureAlbumMembership
  have : ∀ (l : List (String × PhotoRec)) (acc : St), NodupKeys acc.m →
      NodupKeys ((l.foldl (fun acc pr =>
        if pr.2.localFolder ≠ "" then
          match acc.cache.find? (fun ab => ab.1 = pr.2.localFolder) with
          | some ab =>
            if pr.2.albums.contains pr.2.localFolder then acc
            else
              { acc with
                m := acc.m.map (fun q =>
                  if q.1 = pr.1 then
                    (q.1, { q.2 with albums := q.2.albums ++ [pr.2.localFolder] })
                  else q),
                r := addMediaItemToAlbum acc.r ab.2 pr.1,
                tr := acc.tr ++ [Event.albumLinked ab.2 pr.1] }
          | none => acc
        else acc) acc).m) := by
    intro l
    induction l with
    | nil => intro acc h; exact h
    | cons hd tl ih =>
      intro acc h
      apply ih
      by_cases hf : hd.2.localFolder ≠ ""
      · simp only [if_pos hf]
        cases hc : (acc.cache.find? (fun ab => ab.1 = hd.2.localFolder)) with
        | none => exact h
        | some ab =>
          by_cases hm : hd.2.albums.contains hd.2.localFolder
          · simp only [hm, if_true]; exact h
          · simp only [hm, Bool.false_eq_true, if_false]
            apply nodupKeys_map ?_ h
            intro pr
            dsimp only
            split <;> rfl
      · simp only [if_neg hf]; exact h
  exact this s.m s hn

theorem nodupKeys_uploadLocalNewFiles (s : St) (hn : NodupKeys s.m) :
    NodupKeys (uploadLocalNewFiles s).m := by
  unfold uploadLocalNewFiles
  apply nodupKeys_ensureAlbumMembership
  have : ∀ (l : List Path) (acc : St), NodupKeys acc.m →
      NodupKeys ((l.foldl (fun acc p =>
        if isMediaName (lastName p) then
          if (s.m.map (fun pr => computeLocalPath pr.2)).contains p then acc
          else handleNewLocalFile p acc
        else acc) acc).m) := by
    intro l
    induction l with
    | nil => intro acc h; exact h
    | cons hd tl ih =>
      intro acc h
      apply ih
      by_cases hmed : isMediaName (lastName hd) = true
      · by_cases hk : (s.m.map (fun pr => computeLocalPath pr.2)).contains hd = true
        · simp only [hmed, hk, if_true]; exact h
        · simp only [hmed, hk, if_true, Bool.false_eq_true, if_false]
          exact nodupKeys_handleNewLocalFile hd acc h
      · simp only [hmed, Bool.false_eq_true, if_false]; exact h
  exact this s.fs s hn

theorem nodupKeys_syncLocalFilePaths (s : St) (hn : NodupKeys s.m) :
    NodupKeys (syncLocalFilePaths s).m := by
  unfold syncLocalFilePaths
  have : ∀ (l : List (String × PhotoRec)) (acc : St), NodupKeys acc.m →
      NodupKeys ((l.foldl (fun acc pr =>
        let newFolder := chooseLocalFolder pr.2
        if newFolder ≠ pr.2.localFolder then
          let oldP := mkPath pr.2.localFolder pr.2.filename
          let newP := mkPath newFolder pr.2.filename
          let mv := moveLocalFile oldP newP acc.fs
          { acc with
            fs := mv.1,
            tr := match mv.2 with
              | some od => acc.tr ++ [Event.moved od.1 od.2]
              | none => acc.tr,
            m := acc.m.map (fun q =>
              if q.1 = pr.1 then (q.1, { q.2 with localFolder := newFolder }) else q) }
        else acc) acc).m) := by
    intro l
    induction l with
    | nil => intro acc h; exact h
    | cons hd tl ih =>
      intro acc h
      apply ih
      by_cases hf : chooseLocalFolder hd.2 ≠ hd.2.localFolder
      · simp only [if_pos hf]
        apply nodupKeys_map ?_ h
        intro pr
        dsimp only
        split <;> rfl
      · simp only [if_neg hf]; exact h
  exact this s.m s hn

theorem nodupKeys_downloadMissing (s : St) (hn : NodupKeys s.m) :
    NodupKeys (downloadMissing s).m := by
  rw [downloadMissing_m_eq]
  exact hn

/-! ## Per-key tracking of one record through each pass -/

theorem contains_eq_false_of_all_ne {l : List String} {x : String}
    (h : ∀ y ∈ l, y ≠ x) : l.contains x = false := by
  rw [List.contains_eq_any_beq, List.any_eq_false]
  intro y hy
  simp only [beq_iff_eq]
  exact fun he => (h y hy) he.symm

theorem entriesAt_posFold_ne {mid : String} (a b : Bool) (c : Option String) :
    ∀ (items : List Item) (m : PhotosMap), (∀ it ∈ items, it.id ≠ mid) →
      entriesAt mid (items.foldl (fun m it => updatePhotosMapEntry m it a b c) m)
        = entriesAt mid m := by
  intro items
  induction items with
  | nil => intro m _; rfl
  | cons hd tl ih =>
    intro m hne
    rw [List.foldl_cons, ih _ (fun it hit => hne it (List.mem_cons_of_mem hd hit)),
      entriesAt_updatePhotosMapEntry_ne _ _ _ _ _ (hne hd (List.mem_cons_self hd tl))]

theorem entriesAt_recheck_id {cfg : Config} {s : St} {mid : String} {rec : PhotoRec}
    (hsingle : entriesAt mid s.m = [(mid, rec)])
    (hct : rec.creationTime = none ∨ ∃ c, rec.creationTime = some c ∧ c < cfg.cutoff)
    (hwin : rec.inLastNDays = false) :
    entriesAt mid (recheckInLastNDaysForExisting cfg s).m = [(mid, rec)] := by
  unfold recheckInLastNDaysForExisting
  dsimp only
  rw [entriesAt_map_of_keepKeys ?keep mid, hsingle]
  case keep =>
    intro pr
    rcases h : pr.2.creationTime with _ | c <;> simp [h]
  simp only [List.map_cons, List.map_nil]
  rcases hct with hnone | ⟨c, hc, hlt⟩
  · rw [hnone]
  · rw [hc]
    dsimp only
    have hdec : decide (c ≥ cfg.cutoff) = false := by
      simp only [decide_eq_false_iff_not]
      omega
    rw [hdec]
    cases rec with
    | mk f1 f2 f3 f4 f5 f6 =>
      simp only at hwin hc
      rw [← hwin, ← hc]

theorem entriesAt_gatherIsStarred_unstar {s : St} {mid : String} {rec : PhotoRec}
    (hsingle : entriesAt mid s.m = [(mid, rec)])
    (hne : ∀ it ∈ collectPages s.r.starredPages, it.id ≠ mid)
    (hstar : rec.isStarred = true) :
    entriesAt mid (gatherIsStarred s).m = [(mid, { rec with isStarred := false })] := by
  unfold gatherIsStarred
  dsimp only
  rw [entriesAt_map_of_keepKeys ?keep mid, entriesAt_posFold_ne _ _ _ _ _ hne, hsingle]
  case keep =>
    intro pr
    dsimp only
    split <;> rfl
  simp only [List.map_cons, List.map_nil]
  have hcont : ((collectPages s.r.starredPages).map (fun it => it.id)).contains mid = false := by
    apply contains_eq_false_of_all_ne
    intro y hy
    rcases List.mem_map.mp hy with ⟨it, hit, rfl⟩
    exact hne it hit
  rw [hstar, hcont]
  simp

theorem entriesAt_gatherLastNDays_ne {s : St} {mid : String}
    (hne : ∀ it ∈ collectPages s.r.lastNPages, it.id ≠ mid) :
    entriesAt mid (gatherLastNDays s).m = entriesAt mid s.m :=
  entriesAt_posFold_ne _ _ _ _ _ hne

theorem entriesAt_gatherAlbum_inert {s : St} {t : String} {mid : String} {rec : PhotoRec}
    (hsingle : entriesAt mid s.m = [(mid, rec)])
    (halb : rec.albums = [])
    (hne : ∀ aid, resolveAlbumId s.r t = some aid →
      ∀ it ∈ collectPages (s.r.albumPages aid), it.id ≠ mid) :
    entriesAt mid (gatherAlbum s t).m = [(mid, rec)] := by
  unfold gatherAlbum
  cases hres : resolveAlbumId s.r t with
  | none => exact hsingle
  | some aid =>
    dsimp only
    rw [entriesAt_map_of_keepKeys ?keep mid, entriesAt_posFold_ne _ _ _ _ _ (hne aid hres),
      hsingle]
    case keep =>
      intro pr
      dsimp only
      split <;> rfl
    simp only [List.map_cons, List.map_nil]
    have hcont : rec.albums.contains t = false := by rw [halb]; rfl
    rw [hcont]
    simp

theorem entriesAt_gatherAlbums_inert {cfg : Config} {s : St} {mid : String} {rec : PhotoRec}
    (hsingle : entriesAt mid s.m = [(mid, rec)]) (halb : rec.albums = [])
    (hne : ∀ t ∈ cfg.albums, ∀ aid, resolveAlbumId s.r t = some aid →
      ∀ it ∈ collectPages (s.r.albumPages aid), it.id ≠ mid) :
    entriesAt mid (gatherAlbums cfg s).m = [(mid, rec)] := by
  unfold gatherAlbums
  have : ∀ (l : List String), (∀ t ∈ l, ∀ aid, resolveAlbumId s.r t = some aid →
      ∀ it ∈ collectPages (s.r.albumPages aid), it.id ≠ mid) →
      ∀ (acc : St), acc.r = s.r → entriesAt mid acc.m = [(mid, rec)] →
      entriesAt mid ((l.foldl gatherAlbum acc).m) = [(mid, rec)] := by
    intro l
    induction l with
    | nil => intro _ acc _ hacc; exact hacc
    | cons hd tl ih =>
      intro hnel acc haccr hacc
      rw [List.foldl_cons]
      apply ih (fun t ht => hnel t (List.mem_cons_of_mem hd ht))
      · rw [gatherAlbum_r, haccr]
      · apply entriesAt_gatherAlbum_inert hacc halb
        rw [haccr]
        exact hnel hd (List.mem_cons_self hd tl)
  exact this cfg.albums hne s rfl hsingle

theorem entriesAt_handleNewLocalFile_ne {p : Path} {s : St} {mid : String}
    (hfresh : s.r.uploadId p ≠ some mid) :
    entriesAt mid (handleNewLocalFile p s).m = entriesAt mid s.m := by
  unfold handleNewLocalFile
  cases hu : s.r.uploadId p with
  | none => rfl
  | some mid' =>
    have hne : mid' ≠ mid := fun he => hfresh (he ▸ hu)
    dsimp only
    have hm1 : entriesAt mid (if s.m.any (fun pr => pr.1 = mid') then
        s.m.map (fun pr =>
          if pr.1 = mid' then (pr.1, { pr.2 with localFolder :=
            (if p.length > 1 then p.headD "" else "") }) else pr)
      else s.m ++ [(mid',
        { filename := lastName p, localFolder := (if p.length > 1 then p.headD "" else ""),
          isStarred := false, inLastNDays := false, albums := [], creationTime := none })]) =
        entriesAt mid s.m := by
      by_cases h : s.m.any (fun pr => pr.1 = mid')
      · rw [if_pos h, entriesAt_map_of_keepKeys ?keep mid]
        case keep =>
          intro pr
          dsimp only
          split <;> rfl
        apply map_eq_self_of
        intro pr hpr
        have hkey : pr.1 = mid := by simpa using (List.mem_filter.mp hpr).2
        rw [if_neg (by rw [hkey]; exact fun h2 => hne h2.symm)]
      · rw [if_neg h, entriesAt_append]
        have hnil : entriesAt mid
            [(mid', (⟨lastName p, (if p.length > 1 then p.headD "" else ""),
              false, false, [], none⟩ : PhotoRec))] = [] := by
          apply entriesAt_eq_nil_of_not_key
          intro pr hpr
          rw [List.mem_singleton] at hpr
          subst hpr
          exact hne
        rw [hnil, List.append_nil]
    by_cases hf : (if p.length > 1 then p.headD "" else "") ≠ ""
    · rw [if_pos hf]
      cases hc : (List.find? (fun ab => ab.1 = (if p.length > 1 then p.headD "" else "")) s.cache) with
      | none => exact hm1
      | some ab =>
        rw [entriesAt_map_of_keepKeys ?keep mid, hm1]
        case keep =>
          intro pr
          dsimp only
          split <;> split <;> rfl
        apply map_eq_self_of
        intro pr hpr
        have hkey : pr.1 = mid := by simpa using (List.mem_filter.mp hpr).2
        have : (pr.1 = mid' && !(pr.2.albums.contains (if p.length > 1 then p.headD "" else ""))) = false := by
          simp only [Bool.and_eq_false_iff]
          left
          simp only [decide_eq_false_iff_not]
          rw [hkey]
          exact fun h2 => hne h2.symm
        rw [this]
        simp
    · rw [if_neg hf]
      exact hm1

theorem entriesAt_uploadFold_inert {s : St} {mid : String} {rec : PhotoRec} :
    ∀ (l : List Path) (acc : St), acc.r.uploadId = s.r.uploadId →
      (∀ p, s.r.uploadId p ≠ some mid) →
      entriesAt mid acc.m = [(mid, rec)] →
      entriesAt mid ((l.foldl (fun acc p =>
        if isMediaName (lastName p) then
          if (s.m.map (fun pr => computeLocalPath pr.2)).contains p then acc
          else handleNewLocalFile p acc
        else acc) acc).m) = [(mid, rec)] ∧
      ((l.foldl (fun acc p =>
        if isMediaName (lastName p) then
          if (s.m.map (fun pr => computeLocalPath pr.2)).contains p then acc
          else handleNewLocalFile p acc
        else acc) acc).r.uploadId = s.r.uploadId) := by
  intro l
  induction l with
  | nil => intro acc hup _ hacc; exact ⟨hacc, hup⟩
  | cons hd tl ih =>
    intro acc hup hfresh hacc
    rw [List.foldl_cons]
    by_cases hmed : isMediaName (lastName hd) = true
    · by_cases hk : (s.m.map (fun pr => computeLocalPath pr.2)).contains hd = true
      · simp only [hmed, hk, if_true]
        exact ih acc hup hfresh hacc
      · simp only [hmed, hk, if_true, Bool.false_eq_true, if_false]
        apply ih
        · rw [handleNewLocalFile_uploadId, hup]
        · exact hfresh
        · rw [entriesAt_handleNewLocalFile_ne]
          · exact hacc
          · rw [hup]
            exact hfresh hd
    · simp only [hmed, Bool.false_eq_true, if_false]
      exact ih acc hup hfresh hacc

theorem entriesAt_ensureAlbumMembership_inert {s : St} {mid : String} {rec : PhotoRec}
    (hsingle : entriesAt mid s.m = [(mid, rec)]) (hfolder : rec.localFolder = "") :
    entriesAt mid (ensureAlbumMembership s).m = [(mid, rec)] := by
  unfold ensureAlbumMembership
  have huniq := key_entries_unique hsingle
  have : ∀ (l : List (String × PhotoRec)), (∀ pr ∈ l, pr.1 = mid → pr = (mid, rec)) →
      ∀ (acc : St), entriesAt mid acc.m = [(mid, rec)] →
      entriesAt mid ((l.foldl (fun acc pr =>
        if pr.2.localFolder ≠ "" then
          match acc.cache.find? (fun ab => ab.1 = pr.2.localFolder) with
          | some ab =>
            if pr.2.albums.contains pr.2.localFolder then acc
            else
              { acc with
                m := acc.m.map (fun q =>
                  if q.1 = pr.1 then
                    (q.1, { q.2 with albums := q.2.albums ++ [pr.2.localFolder] })
                  else q),
                r := addMediaItemToAlbum acc.r ab.2 pr.1,
                tr := acc.tr ++ [Event.albumLinked ab.2 pr.1] }
          | none => acc
        else acc) acc).m) = [(mid, rec)] := by
    intro l
    induction l with
    | nil => intro _ acc hacc; exact hacc
    | cons hd tl ih =>
      intro hl acc hacc
      rw [List.foldl_cons]
      apply ih (fun pr hpr => hl pr (List.mem_cons_of_mem hd hpr))
      by_cases hf : hd.2.localFolder ≠ ""
      · by_cases hkey : hd.1 = mid
        · have : hd = (mid, rec) := hl hd (List.mem_cons_self hd tl) hkey
          rw [this] at hf
          exact absurd hfolder hf
        · simp only [if_pos hf]
          cases hc : (acc.cache.find? (fun ab => ab.1 = hd.2.localFolder)) with
          | none => exact hacc
          | some ab =>
            by_cases hm : hd.2.albums.contains hd.2.localFolder
            · simp only [hm, if_true]
              exact hacc
            · simp only [hm, Bool.false_eq_true, if_false]
              rw [entriesAt_map_of_keepKeys ?keep mid, hacc]
              case keep =>
                intro pr
                dsimp only
                split <;> rfl
              apply map_eq_self_of
              intro pr hpr
              rw [List.mem_singleton] at hpr
              subst hpr
              rw [if_neg (by simpa using fun h2 => hkey h2.symm)]
      · simp only [if_neg hf]
        exact hacc
  exact this s.m huniq s hsingle

theorem entriesAt_uploadLocalNewFiles_inert {s : St} {mid : String} {rec : PhotoRec}
    (hsingle : entriesAt mid s.m = [(mid, rec)]) (hfolder : rec.localFolder = "")
    (hfresh : ∀ p, s.r.uploadId p ≠ some mid) :
    entriesAt mid (uploadLocalNewFiles s).m = [(mid, rec)] := by
  unfold uploadLocalNewFiles
  obtain ⟨h1, _⟩ := @entriesAt_uploadFold_inert s mid rec s.fs s rfl hfresh hsingle
  exact entriesAt_ensureAlbumMembership_inert h1 hfolder

theorem entriesAt_syncLocalFilePaths_inert {s : St} {mid : String} {rec : PhotoRec}
    (hsingle : entriesAt mid s.m = [(mid, rec)])
    (hstable : chooseLocalFolder rec = rec.localFolder) :
    entriesAt mid (syncLocalFilePaths s).m = [(mid, rec)] := by
  unfold syncLocalFilePaths
  have huniq := key_entries_unique hsingle
  have : ∀ (l : List (String × PhotoRec)), (∀ pr ∈ l, pr.1 = mid → pr = (mid, rec)) →
      ∀ (acc : St), entriesAt mid acc.m = [(mid, rec)] →
      entriesAt mid ((l.foldl (fun acc pr =>
        let newFolder := chooseLocalFolder pr.2
        if newFolder ≠ pr.2.localFolder then
          let oldP := mkPath pr.2.localFolder pr.2.filename
          let newP := mkPath newFolder pr.2.filename
          let mv := moveLocalFile oldP newP acc.fs
          { acc with
            fs := mv.1,
            tr := match mv.2 with
              | some od => acc.tr ++ [Event.moved od.1 od.2]
              | none => acc.tr,
            m := acc.m.map (fun q =>
              if q.1 = pr.1 then (q.1, { q.2 with localFolder := newFolder }) else q) }
        else acc) acc).m) = [(mid, rec)] := by
    intro l
    induction l with
    | nil => intro _ acc hacc; exact hacc
    | cons hd tl ih =>
      intro hl acc hacc
      rw [List.foldl_cons]
      apply ih (fun pr hpr => hl pr (List.mem_cons_of_mem hd hpr))
      by_cases hf : chooseLocalFolder hd.2 ≠ hd.2.localFolder
      · by_cases hkey : hd.1 = mid
        · have : hd = (mid, rec) := hl hd (List.mem_cons_self hd tl) hkey
          rw [this] at hf
          exact absurd hstable hf
        · simp only [if_pos hf]
          rw [entriesAt_map_of_keepKeys ?keep mid, hacc]
          case keep =>
            intro pr
            dsimp only
            split <;> rfl
          apply map_eq_self_of
          intro pr hpr
          rw [List.mem_singleton] at hpr
          subst hpr
          rw [if_neg (by simpa using fun h2 => hkey h2.symm)]
      · simp only [if_neg hf]
        exact hacc
  exact this s.m huniq s hsingle

/-! ## Trace lemmas: which events a run can record -/

/-- An upload event is well-formed when the uploaded file has a media
extension; every other event is unconstrained here. -/
def eventUploadOk : Event → Prop
  | Event.uploaded p _ => isMediaName (lastName p) = true
  | _ => True

theorem tr_gatherAlbum (s : St) (t : String) : (gatherAlbum s t).tr = s.tr := by
  unfold gatherAlbum
  cases resolveAlbumId s.r t with
  | none => rfl
  | some aid => rfl

theorem tr_gatherAlbums (cfg : Config) (s : St) : (gatherAlbums cfg s).tr = s.tr := by
  unfold gatherAlbums
  have : ∀ (l : List String) (acc : St), (l.foldl gatherAlbum acc).tr = acc.tr := by
    intro l
    induction l with
    | nil => intro acc; rfl
    | cons hd tl ih =>
      intro acc
      rw [List.foldl_cons, ih, tr_gatherAlbum]
  exact this cfg.albums s

theorem tr_events_downloadIfNeeded (mid : String) (rec : PhotoRec) (s : St) :
    ∀ e ∈ (downloadIfNeeded mid rec s).tr, e ∈ s.tr ∨ eventUploadOk e := by
  intro e he
  unfold downloadIfNeeded at he
  cases hm : s.r.meta mid with
  | none => rw [hm] at he; exact Or.inl he
  | some it =>
    rw [hm] at he
    by_cases h1 : it.hasBaseUrl = true
    · by_cases h2 : s.r.downloadOk mid = true
      · simp only [h1, h2, if_true] at he
        rcases List.mem_append.mp he with h | h
        · exact Or.inl h
        · rw [List.mem_singleton] at h
          subst h
          exact Or.inr trivial
      · simp only [h1, h2, if_true, if_false] at he
        exact Or.inl he
    · simp only [h1, if_false] at he
      exact Or.inl he

theorem tr_events_downloadMissing (s : St) :
    ∀ e ∈ (downloadMissing s).tr, e ∈ s.tr ∨ eventUploadOk e := by
  unfold downloadMissing
  have : ∀ (l : List (String × PhotoRec)) (acc : St),
      (∀ e ∈ acc.tr, e ∈ s.tr ∨ eventUploadOk e) →
      ∀ e ∈ (l.foldl (fun acc pr =>
        if needLocalCopy pr.2 && !(acc.fs.contains (computeLocalPath pr.2)) then
          downloadIfNeeded pr.1 pr.2 acc
        else acc) acc).tr, e ∈ s.tr ∨ eventUploadOk e := by
    intro l
    induction l with
    | nil => intro acc h; exact h
    | cons hd tl ih =>
      intro acc h
      apply ih
      show ∀ e ∈ (if (needLocalCopy hd.2 && !(acc.fs.contains (computeLocalPath hd.2))) = true
        then downloadIfNeeded hd.1 hd.2 acc else acc).tr, e ∈ s.tr ∨ eventUploadOk e
      by_cases hc : (needLocalCopy hd.2 && !(acc.fs.contains (computeLocalPath hd.2))) = true
      · rw [if_pos hc]
        intro e he
        rcases tr_events_downloadIfNeeded hd.1 hd.2 acc e he with h1 | h1
        · exact h e h1
        · exact Or.inr h1
      · rw [if_neg hc]; exact h
  exact this s.m s (fun e he => Or.inl he)

theorem tr_events_handleNewLocalFile (p : Path) (s : St)
    (hmedia : isMediaName (lastName p) = true) :
    ∀ e ∈ (handleNewLocalFile p s).tr, e ∈ s.tr ∨ eventUploadOk e := by
  intro e he
  unfold handleNewLocalFile at he
  cases hu : s.r.uploadId p with
  | none => rw [hu] at he; exact Or.inl he
  | some mid =>
    rw [hu] at he
    simp only at he
    by_cases hf : (if p.length > 1 then p.headD "" else "") ≠ ""
    · rw [if_pos hf] at he
      cases hc : (List.find? (fun ab => ab.1 = (if p.length > 1 then p.headD "" else "")) s.cache) with
      | none =>
        rw [hc] at he
        simp only at he
        rcases List.mem_append.mp he with h | h
        · exact Or.inl h
        · rw [List.mem_singleton] at h
          subst h
          exact Or.inr hmedia
      | some ab =>
        rw [hc] at he
        simp only at he
        rcases List.mem_append.mp he with h | h
        · rcases List.mem_append.mp h with h2 | h2
          · exact Or.inl h2
          · rw [List.mem_singleton] at h2
            subst h2
            exact Or.inr hmedia
        · rw [List.mem_singleton] at h
          subst h
          exact Or.inr trivial
    · rw [if_neg hf] at he
      rcases List.mem_append.mp he with h | h
      · exact Or.inl h
      · rw [List.mem_singleton] at h
        subst h
        exact Or.inr hmedia

theorem tr_events_ensureAlbumMembership (s : St) :
    ∀ e ∈ (ensureAlbumMembership s).tr, e ∈ s.tr ∨ eventUploadOk e := by
  unfold ensureAlbumMembership
  have : ∀ (l : List (String × PhotoRec)) (acc : St),
      (∀ e ∈ acc.tr, e ∈ s.tr ∨ eventUploadOk e) →
      ∀ e ∈ (l.foldl (fun acc pr =>
        if pr.2.localFolder ≠ "" then
          match acc.cache.find? (fun ab => ab.1 = pr.2.localFolder) with
          | some ab =>
            if pr.2.albums.contains pr.2.localFolder then acc
            else
              { acc with
                m := acc.m.map (fun q =>
                  if q.1 = pr.1 then
                    (q.1, { q.2 with albums := q.2.albums ++ [pr.2.localFolder] })
                  else q),
                r := addMediaItemToAlbum acc.r ab.2 pr.1,
                tr := acc.tr ++ [Event.albumLinked ab.2 pr.1] }
          | none => acc
        else acc) acc).tr, e ∈ s.tr ∨ eventUploadOk e := by
    intro l
    induction l with
    | nil => intro acc h; exact h
    | cons hd tl ih =>
      intro acc h
      apply ih
      intro e he
      by_cases hf : hd.2.localFolder ≠ ""
      · simp only [hf, if_true, ne_eq, not_false_eq_true, if_pos] at he
        cases hc : (acc.cache.find? (fun ab => ab.1 = hd.2.localFolder)) with
        | none =>
          rw [hc] at he
          exact h e he
        | some ab =>
          rw [hc] at he
          by_cases hm : hd.2.albums.contains hd.2.localFolder
          · simp only [hm, if_true] at he
            exact h e he
          · simp only [hm, if_false, Bool.false_eq_true] at he
            rcases List.mem_append.mp he with h2 | h2
            · exact h e h2
            · rw [List.mem_singleton] at h2
              subst h2
              exact Or.inr trivial
      · simp only [if_neg hf] at he
        exact h e he
  exact this s.m s (fun e he => Or.inl he)

theorem tr_events_uploadLocalNewFiles (s : St) :
    ∀ e ∈ (uploadLocalNewFiles s).tr, e ∈ s.tr ∨ eventUploadOk e := by
  unfold uploadLocalNewFiles
  intro e he
  have hmain : ∀ (l : List Path) (acc : St),
      (∀ e ∈ acc.tr, e ∈ s.tr ∨ eventUploadOk e) →
      ∀ e ∈ (l.foldl (fun acc p =>
        if isMediaName (lastName p) then
          if (s.m.map (fun pr => computeLocalPath pr.2)).contains p then acc
          else handleNewLocalFile p acc
        else acc) acc).tr, e ∈ s.tr ∨ eventUploadOk e := by
    intro l
    induction l with
    | nil => intro acc h; exact h
    | cons hd tl ih =>
      intro acc h
      apply ih
      intro e he
      by_cases hmed : isMediaName (lastName hd) = true
      · by_cases hk : (s.m.map (fun pr => computeLocalPath pr.2)).contains hd = true
        · simp only [hmed, hk, if_true] at he
          exact h e he
        · simp only [hmed, hk, if_true, if_false, Bool.false_eq_true] at he
          rcases tr_events_handleNewLocalFile hd acc hmed e he with h1 | h1
          · exact h e h1
          · exact Or.inr h1
      · simp only [hmed, if_false, Bool.false_eq_true] at he
        exact h e he
  rcases tr_events_ensureAlbumMembership _ e he with h1 | h1
  · exact hmain s.fs s (fun e he => Or.inl he) e h1
  · exact Or.inr h1

theorem tr_events_syncLocalFilePaths (s : St) :
    ∀ e ∈ (syncLocalFilePaths s).tr, e ∈ s.tr ∨ eventUploadOk e := by
  unfold syncLocalFilePaths
  have : ∀ (l : List (String × PhotoRec)) (acc : St),
      (∀ e ∈ acc.tr, e ∈ s.tr ∨ eventUploadOk e) →
      ∀ e ∈ (l.foldl (fun acc pr =>
        let newFolder := chooseLocalFolder pr.2
        if newFolder ≠ pr.2.localFolder then
          let oldP := mkPath pr.2.localFolder pr.2.filename
          let newP := mkPath newFolder pr.2.filename
          let mv := moveLocalFile oldP newP acc.fs
          { acc with
            fs := mv.1,
            tr := match mv.2 with
              | some od => acc.tr ++ [Event.moved od.1 od.2]
              | none => acc.tr,
            m := acc.m.map (fun q =>
              if q.1 = pr.1 then (q.1, { q.2 with localFolder := newFolder }) else q) }
        else acc) acc).tr, e ∈ s.tr ∨ eventUploadOk e := by
    intro l
    induction l with
    | nil => intro acc h; exact h
    | cons hd tl ih =>
      intro acc h
      apply ih
      intro e he
      by_cases hf : chooseLocalFolder hd.2 ≠ hd.2.localFolder
      · simp only [hf, if_true, ne_eq, not_false_eq_true, if_pos] at he
        cases hmv : (moveLocalFile (mkPath hd.2.localFolder hd.2.filename)
            (mkPath (chooseLocalFolder hd.2) hd.2.filename) acc.fs).2 with
        | none =>
          rw [hmv] at he
          exact h e he
        | some od =>
          rw [hmv] at he
          rcases List.mem_append.mp he with h2 | h2
          · exact h e h2
          · rw [List.mem_singleton] at h2
            subst h2
            exact Or.inr trivial
      · simp only [if_neg hf] at he
        exact h e he
  exact this s.m s (fun e he => Or.inl he)

theorem tr_events_cleanupLocal (s : St) :
    ∀ e ∈ (cleanupLocal s).tr, e ∈ s.tr ∨ eventUploadOk e := by
  unfold cleanupLocal
  have : ∀ (l : List String) (acc : St),
      (∀ e ∈ acc.tr, e ∈ s.tr ∨ eventUploadOk e) →
      ∀ e ∈ (l.foldl cleanupStep acc).tr, e ∈ s.tr ∨ eventUploadOk e := by
    intro l
    induction l with
    | nil => intro acc h; exact h
    | cons hd tl ih =>
      intro acc h
      apply ih
      intro e he
      unfold cleanupStep at he
      cases hfind : acc.m.find? (fun pr => pr.1 = hd) with
      | none => rw [hfind] at he; exact h e he
      | some pr =>
        rw [hfind] at he
        simp only at he
        by_cases hp : computeLocalPath pr.2 ∈ acc.fs
        · simp only [hp, if_true, if_pos] at he
          rcases List.mem_append.mp he with h2 | h2
          · exact h e h2
          · rw [List.mem_singleton] at h2
            subst h2
            exact Or.inr trivial
        · simp only [hp, if_false, if_neg] at he
          exact h e he
  exact this _ s (fun e he => Or.inl he)

/-! # Claim theorems -/

/-- C2: the placement resolver _choose_local_folder is a pure deterministic
function of the record's tags. For a non-empty album set it returns the
lexicographically smallest album title, and the result is invariant under
permutation of the album list (so independent of insertion order); for the
album set B, A in either insertion order it returns A; for an empty album
set with isStarred or inLastNDays true it returns the root folder "". -/
theorem C2_placement_resolver :
    (∀ rec : PhotoRec, rec.albums ≠ [] →
      chooseLocalFolder rec ∈ rec.albums ∧
      ∀ t ∈ rec.albums, StrRel (chooseLocalFolder rec) t) ∧
    (∀ (rec : PhotoRec) (l : List String), rec.albums.Perm l →
      chooseLocalFolder rec = chooseLocalFolder { rec with albums := l }) ∧
    (∀ rec : PhotoRec, rec.albums = [] →
      (rec.isStarred = true ∨ rec.inLastNDays = true) → chooseLocalFolder rec = "") ∧
    (∀ rec : PhotoRec, rec.albums = ["B", "A"] ∨ rec.albums = ["A", "B"] →
      chooseLocalFolder rec = "A") := by
  refine ⟨?_, ?_, ?_, ?_⟩
  · intro rec hne
    have hemp : rec.albums.isEmpty = false := by
      cases h : rec.albums with
      | nil => exact absurd h hne
      | cons a t => rfl
    constructor
    · simp only [chooseLocalFolder, hemp, Bool.not_false, if_pos]
      exact pySorted_head_mem hne
    · intro t ht
      simp only [chooseLocalFolder, hemp, Bool.not_false, if_pos]
      exact pySorted_head_min ht
  · intro rec l hperm
    cases h : rec.albums with
    | nil =>
      have hl : l = [] := by
        rw [h] at hperm
        exact hperm.nil_eq.symm
      simp [chooseLocalFolder, h, hl]
    | cons a t =>
      have hl : l ≠ [] := by
        intro hnil
        rw [h, hnil] at hperm
        simp [List.Perm.eq_nil] at hperm
      have hemp : rec.albums.isEmpty = false := by rw [h]; rfl
      have hemp' : l.isEmpty = false := by
        cases l with
        | nil => exact absurd rfl hl
        | cons b u => rfl
      simp only [chooseLocalFolder, hemp, hemp', Bool.not_false, if_pos]
      rw [pySorted_eq_of_perm hperm]
  · intro rec hemp _
    simp [chooseLocalFolder, hemp]
  · intro rec h
    rcases h with h | h <;> simp only [chooseLocalFolder, h] <;>
      rw [if_pos (by decide)] <;> decide

/-- Witness for C2 at a concrete record with albums B, A. -/
theorem C2_placement_resolver_witness :
    chooseLocalFolder ⟨"x.jpg", "", false, false, ["B", "A"], none⟩ ∈ (["B", "A"] : List String) ∧
    chooseLocalFolder ⟨"x.jpg", "", true, false, [], none⟩ = "" ∧
    chooseLocalFolder ⟨"x.jpg", "", false, false, ["B", "A"], none⟩ =
      chooseLocalFolder ⟨"x.jpg", "", false, false, ["A", "B"], none⟩ := by
  refine ⟨?_, ?_, ?_⟩
  · exact (C2_placement_resolver.1 ⟨"x.jpg", "", false, false, ["B", "A"], none⟩ (by decide)).1
  · exact C2_placement_resolver.2.2.1 ⟨"x.jpg", "", true, false, [], none⟩ rfl (Or.inl rfl)
  · exact C2_placement_resolver.2.1 ⟨"x.jpg", "", false, false, ["B", "A"], none⟩
      ["A", "B"] (List.Perm.swap "A" "B" [])

/-- C1: a record survives the prune pass cleanup_local iff the retention
predicate isStarred or inLastNDays or non-empty albums holds for it at the
start of the pass; every non-retained record is removed from the map and its
backing file at the path computed from its localFolder and filename is
deleted if present; and the pass deletes no file other than the computed
paths of non-retained records. -/
theorem C1_prune_retention (s : St) (hn : NodupKeys s.m) :
    (∀ pr : String × PhotoRec,
      pr ∈ (cleanupLocal s).m ↔ pr ∈ s.m ∧ needLocalCopy pr.2 = true) ∧
    (∀ pr ∈ s.m, needLocalCopy pr.2 = false →
      pr ∉ (cleanupLocal s).m ∧ computeLocalPath pr.2 ∉ (cleanupLocal s).fs) ∧
    (∀ p ∈ s.fs, p ∉ (cleanupLocal s).fs →
      ∃ pr, pr ∈ s.m ∧ needLocalCopy pr.2 = false ∧ computeLocalPath pr.2 = p) := by
  refine ⟨?_, ?_, ?_⟩
  · intro pr
    rw [cleanupLocal_m_spec s hn]
    simp [List.mem_filter]
  · intro pr hpr hkeep
    constructor
    · rw [cleanupLocal_m_spec s hn]
      simp [List.mem_filter, hkeep]
    · rw [cleanupLocal_fs_spec s hn]
      intro hmem
      have hd := (List.mem_filter.mp hmem).2
      have := of_decide_eq_true hd
      exact (this pr hpr hkeep) rfl
  · intro p hp hnot
    by_contra hno
    push_neg at hno
    apply hnot
    rw [cleanupLocal_fs_spec s hn]
    refine List.mem_filter.mpr ⟨hp, ?_⟩
    apply decide_eq_true
    intro pr hpr hkeep heq
    exact hno pr hpr hkeep heq.symm

/-- Remote for the fetch scenarios: one downloadable item A named a.jpg. -/
def dlRemote : Remote :=
  { starredPages := [], lastNPages := [], albumsDir := [],
    albumPages := fun _ => [],
    meta := fun x => if x = "A" then some ⟨"A", "a.jpg", none, true⟩ else none,
    downloadOk := fun _ => true, uploadId := fun _ => none }

/-- State for the fetch scenarios: record A expects a.jpg at the root, and a
file already sits at that path. -/
def dlState : St :=
  ⟨[("A", ⟨"a.jpg", "", true, false, [], none⟩)], [["a.jpg"]], dlRemote, [], []⟩

/-- C5 counterexample: when _download_if_needed hits a naming collision, the
bytes are written under the disambiguated name a(1).jpg, but the record's
filename field is NOT updated to that name: it still reads a.jpg, refuting
the claim at this input. -/
theorem C5_filename_never_updated_counterexample :
    (downloadIfNeeded "A" ⟨"a.jpg", "", true, false, [], none⟩ dlState).fs
      = [["a.jpg"], ["a(1).jpg"]] ∧
    (downloadIfNeeded "A" ⟨"a.jpg", "", true, false, [], none⟩ dlState).m
      = [("A", ⟨"a.jpg", "", true, false, [], none⟩)] ∧
    "a.jpg" ≠ "a(1).jpg" := by
  refine ⟨by decide, by decide, by decide⟩

/-- C5 amended: a collision at the destination is resolved by unique_filename
(appending (1), (2), ... before the extension, successive integers until the
first free name) and the bytes are written under the disambiguated name, but
the photos map, and with it the record's filename field, is left unchanged
by the download and by the whole fetch pass. -/
theorem C5_download_disambiguation (s : St) (mid : String) (rec : PhotoRec) :
    (downloadIfNeeded mid rec s).m = s.m ∧
    (downloadMissing s).m = s.m ∧
    (∀ it, s.r.meta mid = some it → it.hasBaseUrl = true → s.r.downloadOk mid = true →
      computeLocalPath rec ∈ s.fs →
      (downloadIfNeeded mid rec s).fs
        = s.fs ++ [uniqueFilename (computeLocalPath rec) s.fs]) ∧
    (∀ (p : Path) (fs : List Path), p ∈ fs → ∃ k, 1 ≤ k ∧
      uniqueFilename p fs = disambCand p (pyStem (lastName p)) (pySuffix (lastName p)) k ∧
      uniqueFilename p fs ∉ fs ∧
      ∀ i, 1 ≤ i → i < k →
        disambCand p (pyStem (lastName p)) (pySuffix (lastName p)) i ∈ fs) := by
  refine ⟨downloadIfNeeded_m_eq mid rec s, downloadMissing_m_eq s, ?_, ?_⟩
  · intro it hmeta hurl hok hcoll
    unfold downloadIfNeeded
    rw [hmeta]
    simp only [hurl, hok, if_pos, if_true]
    simp [hcoll]
  · intro p fs hp
    obtain ⟨k, hk1, heq, hfree, hall⟩ := uniqueFilename_spec hp
    exact ⟨k, hk1, heq, heq ▸ hfree, hall⟩

/-- Witness for C5 amended: in dlState the download writes a(1).jpg while
the map is untouched, and unique_filename on a colliding root path yields
the least free counter. -/
theorem C5_download_disambiguation_witness :
    (downloadIfNeeded "A" ⟨"a.jpg", "", true, false, [], none⟩ dlState).fs
      = dlState.fs ++
        [uniqueFilename (computeLocalPath ⟨"a.jpg", "", true, false, [], none⟩) dlState.fs] ∧
    (downloadMissing dlState).m = dlState.m ∧
    ∃ k, 1 ≤ k ∧
      uniqueFilename ["a.jpg"] [["a.jpg"]]
        = disambCand ["a.jpg"] (pyStem (lastName ["a.jpg"])) (pySuffix (lastName ["a.jpg"])) k ∧
      uniqueFilename ["a.jpg"] [["a.jpg"]] ∉ [["a.jpg"]] ∧
      ∀ i, 1 ≤ i → i < k →
        disambCand ["a.jpg"] (pyStem (lastName ["a.jpg"])) (pySuffix (lastName ["a.jpg"])) i
          ∈ [["a.jpg"]] := by
  refine ⟨?_, ?_, ?_⟩
  · exact (C5_download_disambiguation dlState "A" ⟨"a.jpg", "", true, false, [], none⟩).2.2.1
      ⟨"A", "a.jpg", none, true⟩ rfl rfl rfl (by decide)
  · exact (C5_download_disambiguation dlState "A" ⟨"a.jpg", "", true, false, [], none⟩).2.1
  · exact (C5_download_disambiguation dlState "A" ⟨"a.jpg", "", true, false, [], none⟩).2.2.2
      ["a.jpg"] [["a.jpg"]] (by decide)

/-- C4: a move with an existing source file leaves no file at the old path
and exactly one file at the (possibly disambiguated) target path; a
pre-existing file at the destination is never overwritten (the target is
then a fresh disambiguated name); paths not involved are untouched; on a
duplicate-free file system the move preserves the number of files (a
replacement, never a copy); and distinct folders give distinct paths, which
is the situation of every move issued by _sync_local_file_paths. -/
theorem C4_move_single_copy (oldP newP : Path) (fs : List Path)
    (hsrc : oldP ∈ fs) (hne : oldP ≠ newP) :
    (∃ tgt,
      moveLocalFile oldP newP fs = (fs.filter (fun q => q ≠ oldP) ++ [tgt], some (oldP, tgt)) ∧
      tgt ∉ fs ∧
      oldP ∉ (moveLocalFile oldP newP fs).1 ∧
      (moveLocalFile oldP newP fs).1.count tgt = 1 ∧
      (newP ∈ fs → tgt ≠ newP ∧ newP ∈ (moveLocalFile oldP newP fs).1) ∧
      (newP ∉ fs → tgt = newP) ∧
      (∀ p, p ≠ oldP → p ≠ tgt → (p ∈ (moveLocalFile oldP newP fs).1 ↔ p ∈ fs)) ∧
      (fs.Nodup → (moveLocalFile oldP newP fs).1.length = fs.length ∧
        (moveLocalFile oldP newP fs).1.Nodup)) ∧
    (∀ f1 f2 n, f1 ≠ f2 → mkPath f1 n ≠ mkPath f2 n) := by
  constructor
  · have hmv : moveLocalFile oldP newP fs =
        (fs.filter (fun q => q ≠ oldP) ++ [if newP ∈ fs then uniqueFilename newP fs else newP],
         some (oldP, if newP ∈ fs then uniqueFilename newP fs else newP)) := by
      simp only [moveLocalFile, if_pos hsrc]
    refine ⟨if newP ∈ fs then uniqueFilename newP fs else newP, hmv, ?_, ?_, ?_, ?_, ?_, ?_, ?_⟩
    · by_cases h : newP ∈ fs
      · rw [if_pos h]; exact uniqueFilename_not_mem newP fs
      · rw [if_neg h]; exact h
    · rw [hmv]
      simp only [List.mem_append, List.mem_filter, List.mem_singleton]
      rintro (⟨_, habs⟩ | habs)
      · simp at habs
      · by_cases h : newP ∈ fs
        · rw [if_pos h] at habs
          exact (habs ▸ uniqueFilename_not_mem newP fs) hsrc
        · rw [if_neg h] at habs
          exact hne habs
    · rw [hmv]
      have htgt : (if newP ∈ fs then uniqueFilename newP fs else newP) ∉ fs := by
        by_cases h : newP ∈ fs
        · rw [if_pos h]; exact uniqueFilename_not_mem newP fs
        · rw [if_neg h]; exact h
      rw [List.count_append]
      have h0 : (fs.filter (fun q => q ≠ oldP)).count
          (if newP ∈ fs then uniqueFilename newP fs else newP) = 0 := by
        apply List.count_eq_zero_of_not_mem
        intro hm
        exact htgt (List.mem_of_mem_filter hm)
      rw [h0]
      simp
    · intro hnew
      constructor
      · rw [if_pos hnew]
        intro habs
        exact (habs ▸ uniqueFilename_not_mem newP fs) hnew
      · rw [hmv]
        simp only [List.mem_append, List.mem_filter]
        left
        exact ⟨hnew, by simpa using hne.symm⟩
    · intro hnew
      rw [if_neg hnew]
    · intro p hpo hpt
      rw [hmv]
      simp only [List.mem_append, List.mem_filter, List.mem_singleton]
      constructor
      · rintro (⟨hp, _⟩ | hp)
        · exact hp
        · exact absurd hp hpt
      · intro hp
        left
        exact ⟨hp, by simpa using hpo⟩
    · intro hnd
      have htgt : (if newP ∈ fs then uniqueFilename newP fs else newP) ∉ fs := by
        by_cases h : newP ∈ fs
        · rw [if_pos h]; exact uniqueFilename_not_mem newP fs
        · rw [if_neg h]; exact h
      rw [hmv]
      have hfe : fs.filter (fun q => q ≠ oldP) = fs.erase oldP := by
        rw [List.Nodup.erase_eq_filter hnd]
        apply List.filter_congr
        intro q _
        by_cases h : q = oldP <;> simp [h, bne_iff_ne]
      constructor
      · simp only [List.length_append]
        rw [hfe, List.length_erase_of_mem hsrc]
        have : 0 < fs.length := List.length_pos.mpr (List.ne_nil_of_mem hsrc)
        simp
        omega
      · apply List.Nodup.append
        · exact List.Nodup.filter _ hnd
        · exact List.nodup_singleton _
        · intro a ha hb
          rw [List.mem_singleton] at hb
          subst hb
          exact htgt (List.mem_of_mem_filter ha)
  · intro f1 f2 n h12
    simp only [mkPath]
    by_cases h1 : f1 = "" <;> by_cases h2 : f2 = "" <;>
      simp [h1, h2] at h12 ⊢
    · intro habs
      exact h12 habs

/-- Witness for C4: moving A/x.jpg to the root while x.jpg already exists
there relocates the file under the disambiguated name and overwrites
nothing. -/
theorem C4_move_single_copy_witness :
    ["A", "x.jpg"] ∉ (moveLocalFile ["A", "x.jpg"] ["x.jpg"] [["A", "x.jpg"], ["x.jpg"]]).1 ∧
    ["x.jpg"] ∈ (moveLocalFile ["A", "x.jpg"] ["x.jpg"] [["A", "x.jpg"], ["x.jpg"]]).1 := by
  obtain ⟨⟨tgt, hmv, htgt, hold, hcount, hcoll, hfree, hframe, hnd⟩, hfolders⟩ :=
    C4_move_single_copy ["A", "x.jpg"] ["x.jpg"] [["A", "x.jpg"], ["x.jpg"]]
      (by decide) (by decide)
  exact ⟨hold, (hcoll (by decide)).2⟩

/-- Concrete scenario of the spec: record X1, 90-day window, creation 120
days before now, inLastNDays initially true, one file at the root. -/
def scenarioWindowState : St :=
  ⟨[("X1", ⟨"a.jpg", "", false, true, [], some (80 * 86400)⟩),
    ("X2", ⟨"b.jpg", "", false, true, [], none⟩)],
   [["a.jpg"]], emptyRemote, [], []⟩

/-- Configuration of the concrete window scenario: now = day 200, 90-day
window, no albums configured. -/
def scenarioWindowCfg : Config := ⟨200 * 86400, 90, []⟩

/-- C10: the push pass only ever uploads files whose extension, lower-cased,
is one of .jpg .jpeg .png .gif .heic .heif .raw .mp4 .mov: no run of the
pipeline ever records an upload of a file with any other extension, so no
record is ever created for such a file by an upload, on this or any later
run. -/
theorem C10_media_extension_filter (cfg : Config) (s : St) (p : Path) (mid : String)
    (hext : isMediaName (lastName p) = false) :
    Event.uploaded p mid ∉ (runPipeline cfg s).tr := by
  intro habs
  unfold runPipeline at habs
  have h1 := tr_events_cleanupLocal _ _ habs
  have hbad : ¬ eventUploadOk (Event.uploaded p mid) := by
    simp only [eventUploadOk, hext]
    simp
  rcases h1 with h1 | h1
  swap
  · exact hbad h1
  have h2 := tr_events_syncLocalFilePaths _ _ h1
  rcases h2 with h2 | h2
  swap
  · exact hbad h2
  have h3 := tr_events_uploadLocalNewFiles _ _ h2
  rcases h3 with h3 | h3
  swap
  · exact hbad h3
  have h4 := tr_events_downloadMissing _ _ h3
  rcases h4 with h4 | h4
  swap
  · exact hbad h4
  have h5 : (gatherLastNDays (gatherIsStarred
      (recheckInLastNDaysForExisting cfg { s with cache := [], tr := [] }))).tr
      = ([] : List Event) := rfl
  rw [tr_gatherAlbums, h5] at h4
  simp at h4

/-- Witness for C10: a run on the concrete window scenario never uploads
notes.txt. -/
theorem C10_media_extension_filter_witness :
    decide (Event.uploaded ["notes.txt"] "N9"
      ∈ (runPipeline scenarioWindowCfg scenarioWindowState).tr) = false :=
  decide_eq_false (C10_media_extension_filter scenarioWindowCfg scenarioWindowState
    ["notes.txt"] "N9" (by decide))

/-- State for the C6 failing input: one starred record, and a favorites
query whose first page fails (a non-200 response, modelled by none). -/
def starErrState : St :=
  ⟨[("X", ⟨"x.jpg", "", true, false, [], none⟩)], [],
   { starredPages := [none], lastNPages := [], albumsDir := [],
     albumPages := fun _ => [], meta := fun _ => none,
     downloadOk := fun _ => false, uploadId := fun _ => none }, [], []⟩

/-- C6 evidence of the code bug: when the favorites search fails on its
first page, gather_is_starred breaks out of pagination with an empty
collected id set but still runs the negative pass against it, clearing
isStarred on record X. The claim (and the spec's error taxonomy) says a
transient remote error leaves the mapping unchanged; the code changes it. -/
theorem C6_failed_query_clears_starred :
    collectPages starErrState.r.starredPages = [] ∧
    (gatherIsStarred starErrState).m = [("X", ⟨"x.jpg", "", false, false, [], none⟩)] ∧
    (gatherIsStarred starErrState).m ≠ starErrState.m := by
  refine ⟨rfl, by decide, by decide⟩

/-- Remote for the C9 concrete scenario: a configured album Wedding with id
W1, and uploads of the two untracked files yielding fresh ids N1, N2. -/
def wedRemote : Remote :=
  { starredPages := [], lastNPages := [], albumsDir := [("Wedding", "W1")],
    albumPages := fun _ => [], meta := fun _ => none, downloadOk := fun _ => false,
    uploadId := fun p => if p = ["IMG1.jpg"] then some "N1"
                         else if p = ["Wedding", "IMG2.jpg"] then some "N2" else none }

/-- State for the C9 concrete scenario: no records, two untracked local
files root/IMG1.jpg and Wedding/IMG2.jpg, Wedding cached as a known album. -/
def wedState : St :=
  ⟨[], [["IMG1.jpg"], ["Wedding", "IMG2.jpg"]], wedRemote, [("Wedding", "W1")], []⟩

/-- C9: a successfully uploaded untracked file gets a new record whose
localFolder is the folder it was physically found in (empty for the
top-level folder, the first path segment otherwise); when that folder is a
cached (known configured) album title, the item is linked to that album
remotely and the title is added to the record's albums; otherwise the new
record's albums are empty. On the concrete scenario, root/IMG1.jpg gets
localFolder "" and Wedding/IMG2.jpg gets localFolder Wedding, album
membership Wedding, and a remote link to album W1. -/
theorem C9_push_new_file_placement (s : St) (p : Path) (mid : String)
    (hup : s.r.uploadId p = some mid) (hfresh : ∀ pr ∈ s.m, pr.1 ≠ mid) :
    ((if p.length > 1 then p.headD "" else "") = "" →
      (mid, (⟨lastName p, "", false, false, [], none⟩ : PhotoRec))
        ∈ (handleNewLocalFile p s).m) ∧
    (∀ folder, (if p.length > 1 then p.headD "" else "") = folder → folder ≠ "" →
      (∀ ab, s.cache.find? (fun x => x.1 = folder) = some ab →
        (mid, (⟨lastName p, folder, false, false, [folder], none⟩ : PhotoRec))
          ∈ (handleNewLocalFile p s).m ∧
        Event.albumLinked ab.2 mid ∈ (handleNewLocalFile p s).tr ∧
        (handleNewLocalFile p s).r.albumPages ab.2
          = s.r.albumPages ab.2 ++ [some [⟨mid, lastName p, none, true⟩]]) ∧
      (s.cache.find? (fun x => x.1 = folder) = none →
        (mid, (⟨lastName p, folder, false, false, [], none⟩ : PhotoRec))
          ∈ (handleNewLocalFile p s).m)) ∧
    (uploadLocalNewFiles wedState).m
      = [("N1", ⟨"IMG1.jpg", "", false, false, [], none⟩),
         ("N2", ⟨"IMG2.jpg", "Wedding", false, false, ["Wedding"], none⟩)] ∧
    Event.albumLinked "W1" "N2" ∈ (uploadLocalNewFiles wedState).tr ∧
    (uploadLocalNewFiles wedState).r.albumPages "W1"
      = [some [⟨"N2", "IMG2.jpg", none, true⟩]] := by
  have hany : s.m.any (fun pr => pr.1 = mid) = false := by
    rw [List.any_eq_false]
    intro pr hpr
    simpa using hfresh pr hpr
  refine ⟨?_, ?_, by decide, by decide, by decide⟩
  · intro hroot
    unfold handleNewLocalFile
    rw [hup]
    simp only [hany, Bool.false_eq_true, if_false, hroot, ne_eq, not_true_eq_false]
    simp only [List.mem_append, List.mem_singleton]
    right
    trivial
  · intro folder hfolder hne
    constructor
    · intro ab hab
      unfold handleNewLocalFile
      rw [hup]
      simp only [hany, Bool.false_eq_true, if_false, hfolder, ne_eq, hne,
        not_false_eq_true, if_pos, hab]
      refine ⟨?_, ?_, ?_⟩
      · simp only [List.map_append, List.mem_append, List.map_cons, List.map_nil,
          List.mem_singleton]
        right
        simp
      · simp only [List.mem_append, List.mem_singleton]
        right
        trivial
      · simp only [addMediaItemToAlbum]
        simp
    · intro hab
      unfold handleNewLocalFile
      rw [hup]
      simp only [hany, Bool.false_eq_true, if_false, hfolder, ne_eq, hne,
        not_false_eq_true, if_pos, hab]
      simp only [List.mem_append, List.mem_singleton]
      right
      trivial

/-- Witness for C9 at the concrete Wedding scenario. -/
theorem C9_push_new_file_placement_witness :
    ("N1", (⟨"IMG1.jpg", "", false, false, [], none⟩ : PhotoRec))
      ∈ (handleNewLocalFile ["IMG1.jpg"] wedState).m ∧
    ("N2", (⟨"IMG2.jpg", "Wedding", false, false, ["Wedding"], none⟩ : PhotoRec))
      ∈ (handleNewLocalFile ["Wedding", "IMG2.jpg"] wedState).m ∧
    Event.albumLinked "W1" "N2" ∈ (handleNewLocalFile ["Wedding", "IMG2.jpg"] wedState).tr := by
  refine ⟨?_, ?_, ?_⟩
  · exact (C9_push_new_file_placement wedState ["IMG1.jpg"] "N1" rfl
      (by intro pr hpr; simp [wedState] at hpr)).1 rfl
  · exact ((C9_push_new_file_placement wedState ["Wedding", "IMG2.jpg"] "N2" rfl
      (by intro pr hpr; simp [wedState] at hpr)).2.1 "Wedding" rfl (by decide)).1
      ("Wedding", "W1") rfl |>.1
  · exact ((C9_push_new_file_placement wedState ["Wedding", "IMG2.jpg"] "N2" rfl
      (by intro pr hpr; simp [wedState] at hpr)).2.1 "Wedding" rfl (by decide)).1
      ("Wedding", "W1") rfl |>.2.1

/-- Remote for the C7 witness: the favorites query succeeds and returns
only item A, so record X is absent from the complete result set. -/
def scenarioStarRemote : Remote :=
  { starredPages := [some [⟨"A", "a.jpg", none, true⟩]], lastNPages := [], albumsDir := [],
    albumPages := fun _ => [],
    meta := fun x => if x = "A" then some ⟨"A", "a.jpg", none, true⟩ else none,
    downloadOk := fun _ => true, uploadId := fun _ => none }

/-- State for the C7 witness: records A (still starred remotely) and X
(starred locally, no longer starred remotely), both files on disk. -/
def scenarioStarState : St :=
  ⟨[("A", ⟨"a.jpg", "", true, false, [], none⟩), ("X", ⟨"x.jpg", "", true, false, [], none⟩)],
   [["a.jpg"], ["x.jpg"]], scenarioStarRemote, [], []⟩

/-- Configuration for the C7 witness. -/
def scenarioStarCfg : Config := ⟨1000, 90, []⟩

/-- C7: a record with isStarred true whose id is absent from the complete
result set of the run's favorites query has isStarred cleared by
gather_is_starred before the later stages; and when being starred was its
only retention reason (window false and staying false, no albums, at the
root, untouched by every other query and by uploads), the same run's prune
pass removes the record and deletes its file. -/
theorem C7_negative_star_propagation (cfg : Config) (s : St) (mid : String) (rec : PhotoRec)
    (hn : NodupKeys s.m) (hmem : (mid, rec) ∈ s.m)
    (hstar : rec.isStarred = true) (hwin : rec.inLastNDays = false)
    (halb : rec.albums = []) (hfolder : rec.localFolder = "")
    (hct : rec.creationTime = none ∨ ∃ c, rec.creationTime = some c ∧ c < cfg.cutoff)
    (hcomplete : ∀ pg ∈ s.r.starredPages, pg ≠ none)
    (hnotstar : ∀ it ∈ collectPages s.r.starredPages, it.id ≠ mid)
    (hnotwin : ∀ it ∈ collectPages s.r.lastNPages, it.id ≠ mid)
    (hnotalb : ∀ t ∈ cfg.albums, ∀ aid, resolveAlbumId s.r t = some aid →
      ∀ it ∈ collectPages (s.r.albumPages aid), it.id ≠ mid)
    (hfresh : ∀ p, s.r.uploadId p ≠ some mid) :
    (∀ pr ∈ (gatherIsStarred (recheckInLastNDaysForExisting cfg
        { s with cache := [], tr := [] })).m, pr.1 = mid → pr.2.isStarred = false) ∧
    (∀ pr ∈ (runPipeline cfg s).m, pr.1 ≠ mid) ∧
    mkPath "" rec.filename ∉ (runPipeline cfg s).fs := by
  obtain ⟨fn, lf, st, win, alb, ct⟩ := rec
  simp only at hstar hwin halb hfolder hct
  subst hstar
  subst hwin
  subst halb
  subst hfolder
  set t0 : St := ⟨s.m, s.fs, s.r, [], []⟩ with ht0
  set t1 := recheckInLastNDaysForExisting cfg t0 with ht1
  set t2 := gatherIsStarred t1 with ht2
  set t3 := gatherLastNDays t2 with ht3
  set t4 := gatherAlbums cfg t3 with ht4
  set t5 := downloadMissing t4 with ht5
  set t6 := uploadLocalNewFiles t5 with ht6
  set t7 := syncLocalFilePaths t6 with ht7
  have hsingle0 : entriesAt mid t0.m = [(mid, ⟨fn, "", true, false, [], ct⟩)] :=
    entriesAt_eq_single hn hmem
  have h1 : entriesAt mid t1.m = [(mid, ⟨fn, "", true, false, [], ct⟩)] :=
    entriesAt_recheck_id (s := t0) hsingle0 hct rfl
  have h2 : entriesAt mid t2.m = [(mid, ⟨fn, "", false, false, [], ct⟩)] :=
    entriesAt_gatherIsStarred_unstar (s := t1) h1 hnotstar rfl
  have h3 : entriesAt mid t3.m = [(mid, ⟨fn, "", false, false, [], ct⟩)] :=
    (entriesAt_gatherLastNDays_ne (s := t2) hnotwin).trans h2
  have h4 : entriesAt mid t4.m = [(mid, ⟨fn, "", false, false, [], ct⟩)] :=
    entriesAt_gatherAlbums_inert (s := t3) h3 rfl hnotalb
  have h5 : entriesAt mid t5.m = [(mid, ⟨fn, "", false, false, [], ct⟩)] := by
    rw [ht5, downloadMissing_m_eq]
    exact h4
  have hup5 : t5.r.uploadId = s.r.uploadId := by
    rw [ht5, downloadMissing_r, ht4, gatherAlbums_r]
    rfl
  have h6 : entriesAt mid t6.m = [(mid, ⟨fn, "", false, false, [], ct⟩)] := by
    rw [ht6]
    apply entriesAt_uploadLocalNewFiles_inert h5 rfl
    intro p
    rw [hup5]
    exact hfresh p
  have h7 : entriesAt mid t7.m = [(mid, ⟨fn, "", false, false, [], ct⟩)] := by
    rw [ht7]
    exact entriesAt_syncLocalFilePaths_inert h6 rfl
  have hn7 : NodupKeys t7.m := by
    rw [ht7, ht6, ht5, ht4, ht3, ht2, ht1]
    apply nodupKeys_syncLocalFilePaths
    apply nodupKeys_uploadLocalNewFiles
    apply nodupKeys_downloadMissing
    apply nodupKeys_gatherAlbums
    apply nodupKeys_gatherLastNDays
    apply nodupKeys_gatherIsStarred
    exact nodupKeys_recheck cfg t0 hn
  have hrun : runPipeline cfg s = cleanupLocal t7 := rfl
  refine ⟨?_, ?_, ?_⟩
  · intro pr hpr hkey
    have := key_entries_unique h2 pr hpr hkey
    rw [this]
  · intro pr hpr
    rw [hrun, cleanupLocal_m_spec _ hn7] at hpr
    obtain ⟨hprm, hkeep⟩ := List.mem_filter.mp hpr
    intro hkey
    have := key_entries_unique h7 pr hprm hkey
    rw [this] at hkeep
    simp [needLocalCopy] at hkeep
  · rw [hrun, cleanupLocal_fs_spec _ hn7]
    intro habs
    have hd := (List.mem_filter.mp habs).2
    have hall := of_decide_eq_true hd
    exact hall (mid, ⟨fn, "", false, false, [], ct⟩)
      (mem_of_entriesAt_single h7) rfl rfl

/-- Witness for C7: a concrete starred record at the root that the favorites
query no longer returns, in a state with a second retained record. -/
theorem C7_negative_star_propagation_witness :
    (∀ pr ∈ (gatherIsStarred (recheckInLastNDaysForExisting scenarioStarCfg
        { scenarioStarState with cache := [], tr := [] })).m,
      pr.1 = "X" → pr.2.isStarred = false) ∧
    (∀ pr ∈ (runPipeline scenarioStarCfg scenarioStarState).m, pr.1 ≠ "X") ∧
    mkPath "" "x.jpg" ∉ (runPipeline scenarioStarCfg scenarioStarState).fs := by
  have h := C7_negative_star_propagation scenarioStarCfg scenarioStarState "X"
    ⟨"x.jpg", "", true, false, [], none⟩
    (by decide) (by decide) rfl rfl rfl rfl (Or.inl rfl)
    (by decide) (by decide) (by decide) (by decide)
    (by intro p; simp [scenarioStarState, scenarioStarRemote])
  exact h

/-- Concrete state for the C1 witness: a starred record A and a record B
with no retention reason, both with their files on disk. -/
def prune1State : St :=
  ⟨[("A", ⟨"a.jpg", "", true, false, [], none⟩),
    ("B", ⟨"b.jpg", "", false, false, [], none⟩)],
   [["a.jpg"], ["b.jpg"]], emptyRemote, [], []⟩

/-- Witness for C1: in prune1State, A survives the prune pass, B is removed
and its file deleted. -/
theorem C1_prune_retention_witness :
    ("A", (⟨"a.jpg", "", true, false, [], none⟩ : PhotoRec)) ∈ (cleanupLocal prune1State).m ∧
    ("B", (⟨"b.jpg", "", false, false, [], none⟩ : PhotoRec)) ∉ (cleanupLocal prune1State).m ∧
    ["b.jpg"] ∉ (cleanupLocal prune1State).fs := by
  refine ⟨?_, ?_, ?_⟩
  · exact ((C1_prune_retention prune1State (by decide)).1
      ("A", ⟨"a.jpg", "", true, false, [], none⟩)).mpr ⟨by simp [prune1State], rfl⟩
  · exact ((C1_prune_retention prune1State (by decide)).2.1
      ("B", ⟨"b.jpg", "", false, false, [], none⟩) (by simp [prune1State]) rfl).1
  · have h := ((C1_prune_retention prune1State (by decide)).2.1
      ("B", ⟨"b.jpg", "", false, false, [], none⟩) (by simp [prune1State]) rfl).2
    simpa using h

/-- C8: the window recheck is purely local. For every record with a stored
creationTime c, its entry after the recheck has inLastNDays = (c ≥ cutoff),
the cutoff being now - days in seconds; a record without a stored
creationTime is left unchanged (never reconsidered); the result does not
depend on the remote service and touches no file; and on the concrete
scenario (90-day window, creation 120 days ago, inLastNDays initially true)
the recheck turns inLastNDays off. -/
theorem C8_window_recheck (cfg : Config) (s : St) :
    (∀ pr ∈ s.m, ∀ c, pr.2.creationTime = some c →
      (pr.1, { pr.2 with inLastNDays := decide (c ≥ cfg.now - cfg.days * 86400) })
        ∈ (recheckInLastNDaysForExisting cfg s).m) ∧
    (∀ pr ∈ s.m, pr.2.creationTime = none →
      pr ∈ (recheckInLastNDaysForExisting cfg s).m) ∧
    (∀ r' : Remote,
      (recheckInLastNDaysForExisting cfg { s with r := r' }).m
        = (recheckInLastNDaysForExisting cfg s).m) ∧
    (recheckInLastNDaysForExisting cfg s).fs = s.fs ∧
    (recheckInLastNDaysForExisting cfg s).tr = s.tr ∧
    (recheckInLastNDaysForExisting scenarioWindowCfg scenarioWindowState).m
      = [("X1", ⟨"a.jpg", "", false, false, [], some (80 * 86400)⟩),
         ("X2", ⟨"b.jpg", "", false, true, [], none⟩)] := by
  refine ⟨?_, ?_, fun _ => rfl, rfl, rfl, by decide⟩
  · intro pr hpr c hc
    have : (pr.1, { pr.2 with inLastNDays := decide (c ≥ cfg.cutoff) }) ∈
        (recheckInLastNDaysForExisting cfg s).m := by
      simp only [recheckInLastNDaysForExisting, List.mem_map]
      exact ⟨pr, hpr, by rw [hc]⟩
    exact this
  · intro pr hpr hc
    simp only [recheckInLastNDaysForExisting, List.mem_map]
    exact ⟨pr, hpr, by rw [hc]⟩

/-- Witness for C8 at a concrete state: one record whose creationTime is
below the cutoff, one without a creationTime. -/
theorem C8_window_recheck_witness :
    ("X1", (⟨"a.jpg", "", false, false, [], some (80 * 86400)⟩ : PhotoRec))
      ∈ (recheckInLastNDaysForExisting scenarioWindowCfg scenarioWindowState).m ∧
    ("X2", (⟨"b.jpg", "", false, true, [], none⟩ : PhotoRec))
      ∈ (recheckInLastNDaysForExisting scenarioWindowCfg scenarioWindowState).m := by
  constructor
  · have := (C8_window_recheck scenarioWindowCfg scenarioWindowState).1
      ("X1", ⟨"a.jpg", "", false, true, [], some (80 * 86400)⟩)
      (by simp [scenarioWindowState]) (80 * 86400) rfl
    simpa [scenarioWindowCfg] using this
  · exact (C8_window_recheck scenarioWindowCfg scenarioWindowState).2.1
      ("X2", ⟨"b.jpg", "", false, true, [], none⟩)
      (by simp [scenarioWindowState]) rfl


/-! ## Idempotence on coherent states (the C3 analysis) -/

/-- A left fold whose step fixes the accumulator is the identity. -/
theorem foldl_fix {α β : Type} (f : β → α → β) (b : β) :
    ∀ (l : List α), (∀ a ∈ l, f b a = b) → l.foldl f b = b
  | [], _ => rfl
  | hd :: tl, h => by
    rw [List.foldl_cons, h hd (List.mem_cons_self hd tl)]
    exact foldl_fix f b tl (fun a ha => h a (List.mem_cons_of_mem hd ha))

/-- A state whose map component is rebuilt unchanged is unchanged. -/
theorem st_eq_of_m_eq {s : St} {mm : PhotosMap} (h : mm = s.m) :
    { s with m := mm } = s := by
  rw [h]

/-- _update_photos_map_entry is the identity on a map that already carries
the item's record with the item's filename and the tags being merged. -/
theorem updatePhotosMapEntry_id {m : PhotosMap} {it : Item} {st win : Bool}
    {tit : Option String}
    (hk : m.any (fun pr => pr.1 = it.id) = true)
    (h : ∀ pr ∈ m, pr.1 = it.id →
      pr.2.filename = it.filename ∧
      (st = true → pr.2.isStarred = true) ∧
      (win = true → pr.2.inLastNDays = true) ∧
      (∀ ttl, tit = some ttl → pr.2.albums.contains ttl = true)) :
    updatePhotosMapEntry m it st win tit = m := by
  unfold updatePhotosMapEntry
  dsimp only
  rw [if_pos hk]
  apply map_eq_self_of
  intro pr hpr
  dsimp only
  by_cases he : pr.1 = it.id
  · rw [if_pos he]
    obtain ⟨hf, hst, hwin, halb⟩ := h pr hpr he
    have e2 : (pr.2.isStarred || st) = pr.2.isStarred := by
      cases st
      · exact Bool.or_false _
      · rw [hst rfl]
        decide
    have e3 : (pr.2.inLastNDays || win) = pr.2.inLastNDays := by
      cases win
      · exact Bool.or_false _
      · rw [hwin rfl]
        decide
    cases tit with
    | none =>
      rw [← hf, e2, e3]
    | some t =>
      dsimp only
      rw [← hf, e2, e3, if_pos (halb t rfl)]
  · rw [if_neg he]

/-- The window recheck is the identity on a map whose records already carry
the recomputed window tag. -/
theorem recheck_id_of_coherent {cfg : Config} {s : St}
    (h : ∀ pr ∈ s.m, ∀ c, pr.2.creationTime = some c →
      pr.2.inLastNDays = decide (c ≥ cfg.cutoff)) :
    recheckInLastNDaysForExisting cfg s = s := by
  unfold recheckInLastNDaysForExisting
  apply st_eq_of_m_eq
  apply map_eq_self_of
  intro pr hpr
  dsimp only
  cases hc : pr.2.creationTime with
  | none => rfl
  | some c =>
    dsimp only
    rw [← h pr hpr c hc, ← hc]

/-- gather_is_starred is the identity on a star-coherent state: every item
of the completed favorites query already has its record starred (with the
current filename), and every starred record is in the query result. -/
theorem gatherIsStarred_id_of_coherent {s : St} (hn : NodupKeys s.m)
    (hpos : ∀ it ∈ collectPages s.r.starredPages, ∃ rec, (it.id, rec) ∈ s.m ∧
      rec.filename = it.filename ∧ rec.isStarred = true)
    (hneg : ∀ pr ∈ s.m, pr.2.isStarred = true →
      ((collectPages s.r.starredPages).map (fun it => it.id)).contains pr.1 = true) :
    gatherIsStarred s = s := by
  have hfold : (collectPages s.r.starredPages).foldl
      (fun m it => updatePhotosMapEntry m it true false none) s.m = s.m := by
    apply foldl_fix
    intro it hit
    show updatePhotosMapEntry s.m it true false none = s.m
    obtain ⟨rec, hmem, hfn, hst⟩ := hpos it hit
    apply updatePhotosMapEntry_id
    · exact List.any_eq_true.mpr ⟨(it.id, rec), hmem, by simp⟩
    · intro pr hpr he
      have hpr' : (it.id, pr.2) ∈ s.m := by rw [← he]; exact hpr
      have hv : pr.2 = rec := value_eq_of_mem_nodupKeys hn hpr' hmem
      refine ⟨?_, ?_, ?_, ?_⟩
      · rw [hv, hfn]
      · intro _
        rw [hv, hst]
      · intro hw
        exact absurd hw (by decide)
      · intro ttl htl
        exact Option.noConfusion htl
  unfold gatherIsStarred
  dsimp only
  apply st_eq_of_m_eq
  rw [hfold]
  apply map_eq_self_of
  intro pr hpr
  dsimp only
  split
  · rename_i hcond
    rw [Bool.and_eq_true] at hcond
    obtain ⟨h1, h2⟩ := hcond
    rw [hneg pr hpr h1] at h2
    exact absurd h2 (by decide)
  · rfl

/-- gather_last_n_days is the identity on a window-coherent state: every
item of the completed date-range query already has its record tagged
inLastNDays with the current filename. -/
theorem gatherLastNDays_id_of_coherent {s : St} (hn : NodupKeys s.m)
    (hpos : ∀ it ∈ collectPages s.r.lastNPages, ∃ rec, (it.id, rec) ∈ s.m ∧
      rec.filename = it.filename ∧ rec.inLastNDays = true) :
    gatherLastNDays s = s := by
  unfold gatherLastNDays
  dsimp only
  apply st_eq_of_m_eq
  apply foldl_fix
  intro it hit
  show updatePhotosMapEntry s.m it false true none = s.m
  obtain ⟨rec, hmem, hfn, hwin⟩ := hpos it hit
  apply updatePhotosMapEntry_id
  · exact List.any_eq_true.mpr ⟨(it.id, rec), hmem, by simp⟩
  · intro pr hpr he
    have hpr' : (it.id, pr.2) ∈ s.m := by rw [← he]; exact hpr
    have hv : pr.2 = rec := value_eq_of_mem_nodupKeys hn hpr' hmem
    refine ⟨?_, ?_, ?_, ?_⟩
    · rw [hv, hfn]
    · intro hst
      exact absurd hst (by decide)
    · intro _
      rw [hv, hwin]
    · intro ttl htl
      exact Option.noConfusion htl

/-- gather_album leaves the photos map unchanged on an album-coherent
state: every item of the completed album query already carries the title
(with the current filename), and every record carrying the title is in the
query result. -/
theorem gatherAlbum_m_id {s : St} {title : String} (hn : NodupKeys s.m)
    (hpos : ∀ aid, resolveAlbumId s.r title = some aid →
      ∀ it ∈ collectPages (s.r.albumPages aid), ∃ rec, (it.id, rec) ∈ s.m ∧
        rec.filename = it.filename ∧ rec.albums.contains title = true)
    (hneg : ∀ aid, resolveAlbumId s.r title = some aid →
      ∀ pr ∈ s.m, pr.2.albums.contains title = true →
        ((collectPages (s.r.albumPages aid)).map (fun it => it.id)).contains pr.1 = true) :
    (gatherAlbum s title).m = s.m := by
  unfold gatherAlbum
  cases ha : resolveAlbumId s.r title with
  | none => rfl
  | some aid =>
    dsimp only
    have hfold : (collectPages (s.r.albumPages aid)).foldl
        (fun m it => updatePhotosMapEntry m it false false (some title)) s.m = s.m := by
      apply foldl_fix
      intro it hit
      show updatePhotosMapEntry s.m it false false (some title) = s.m
      obtain ⟨rec, hmem, hfn, halb⟩ := hpos aid ha it hit
      apply updatePhotosMapEntry_id
      · exact List.any_eq_true.mpr ⟨(it.id, rec), hmem, by simp⟩
      · intro pr hpr he
        have hpr' : (it.id, pr.2) ∈ s.m := by rw [← he]; exact hpr
        have hv : pr.2 = rec := value_eq_of_mem_nodupKeys hn hpr' hmem
        refine ⟨?_, ?_, ?_, ?_⟩
        · rw [hv, hfn]
        · intro hst
          exact absurd hst (by decide)
        · intro hw
          exact absurd hw (by decide)
        · intro ttl htl
          injection htl with hteq
          subst hteq
          rw [hv]
          exact halb
    rw [hfold]
    apply map_eq_self_of
    intro pr hpr
    dsimp only
    split
    · rename_i hcond
      rw [Bool.and_eq_true] at hcond
      obtain ⟨h1, h2⟩ := hcond
      rw [hneg aid ha pr hpr h1] at h2
      exact absurd h2 (by decide)
    · rfl

/-- Folding gather_album over any title list preserves the map, the file
system, the remote and the trace of an album-coherent state (only the
per-run title cache changes). -/
theorem gatherAlbums_fold_coh (M : PhotosMap) (FS : List Path) (R : Remote)
    (TR : List Event) (hn : NodupKeys M) :
    ∀ (L : List String) (s : St),
      s.m = M → s.fs = FS → s.r = R → s.tr = TR →
      (∀ title ∈ L, ∀ aid, resolveAlbumId R title = some aid →
        (∀ it ∈ collectPages (R.albumPages aid), ∃ rec, (it.id, rec) ∈ M ∧
          rec.filename = it.filename ∧ rec.albums.contains title = true) ∧
        (∀ pr ∈ M, pr.2.albums.contains title = true →
          ((collectPages (R.albumPages aid)).map (fun it => it.id)).contains pr.1 = true)) →
      (L.foldl gatherAlbum s).m = M ∧ (L.foldl gatherAlbum s).fs = FS ∧
      (L.foldl gatherAlbum s).r = R ∧ (L.foldl gatherAlbum s).tr = TR := by
  intro L
  induction L with
  | nil =>
    intro s h1 h2 h3 h4 _
    exact ⟨h1, h2, h3, h4⟩
  | cons hd tl ih =>
    intro s h1 h2 h3 h4 hh
    rw [List.foldl_cons]
    have hnm : NodupKeys s.m := by rw [h1]; exact hn
    have hp : ∀ aid, resolveAlbumId s.r hd = some aid →
        ∀ it ∈ collectPages (s.r.albumPages aid), ∃ rec, (it.id, rec) ∈ s.m ∧
          rec.filename = it.filename ∧ rec.albums.contains hd = true := by
      rw [h3, h1]
      intro aid ha
      exact (hh hd (List.mem_cons_self hd tl) aid ha).1
    have hng : ∀ aid, resolveAlbumId s.r hd = some aid →
        ∀ pr ∈ s.m, pr.2.albums.contains hd = true →
          ((collectPages (s.r.albumPages aid)).map (fun it => it.id)).contains pr.1 = true := by
      rw [h3, h1]
      intro aid ha
      exact (hh hd (List.mem_cons_self hd tl) aid ha).2
    exact ih (gatherAlbum s hd)
      ((gatherAlbum_m_id hnm hp hng).trans h1)
      ((gatherAlbum_fs s hd).trans h2)
      ((gatherAlbum_r s hd).trans h3)
      ((tr_gatherAlbum s hd).trans h4)
      (fun t ht => hh t (List.mem_cons_of_mem hd ht))

/-- The fetch pass is the identity when every retained record's file is
already present at its computed path. -/
theorem downloadMissing_id_of_fetched {s : St}
    (h : ∀ pr ∈ s.m, needLocalCopy pr.2 = true →
      s.fs.contains (computeLocalPath pr.2) = true) :
    downloadMissing s = s := by
  unfold downloadMissing
  apply foldl_fix
  intro pr hpr
  dsimp only
  split
  · rename_i hcond
    rw [Bool.and_eq_true] at hcond
    obtain ⟨h1, h2⟩ := hcond
    rw [h pr hpr h1] at h2
    exact absurd h2 (by decide)
  · rfl

/-- _ensure_album_membership is the identity when every record placed in a
named folder already carries that folder's title. -/
theorem ensureAlbumMembership_id_of_member {s : St}
    (h : ∀ pr ∈ s.m, pr.2.localFolder ≠ "" →
      pr.2.albums.contains pr.2.localFolder = true) :
    ensureAlbumMembership s = s := by
  unfold ensureAlbumMembership
  apply foldl_fix
  intro pr hpr
  dsimp only
  split
  · rename_i hlf
    split
    · rename_i ab hab
      rw [if_pos (h pr hpr hlf)]
    · rfl
  · rfl

/-- The push pass is the identity when every media file on disk sits at some
record's computed path and every placed record carries its folder title. -/
theorem uploadLocalNewFiles_id_of_coherent {s : St}
    (htracked : ∀ p ∈ s.fs, isMediaName (lastName p) = true →
      (s.m.map (fun pr => computeLocalPath pr.2)).contains p = true)
    (hmember : ∀ pr ∈ s.m, pr.2.localFolder ≠ "" →
      pr.2.albums.contains pr.2.localFolder = true) :
    uploadLocalNewFiles s = s := by
  unfold uploadLocalNewFiles
  dsimp only
  refine Eq.trans (congrArg ensureAlbumMembership ?_)
    (ensureAlbumMembership_id_of_member hmember)
  apply foldl_fix
  intro p hp
  dsimp only
  split
  · rename_i hmed
    split
    · rfl
    · rename_i hnc
      exact absurd (htracked p hp hmed) hnc
  · rfl

/-- The placement pass is the identity when every record already sits in its
chosen folder. -/
theorem syncLocalFilePaths_id_of_placed {s : St}
    (h : ∀ pr ∈ s.m, chooseLocalFolder pr.2 = pr.2.localFolder) :
    syncLocalFilePaths s = s := by
  unfold syncLocalFilePaths
  apply foldl_fix
  intro pr hpr
  dsimp only
  split
  · rename_i hne
    exact absurd (h pr hpr) hne
  · rfl

/-- The prune pass is the identity when every record is retained. -/
theorem cleanupLocal_id_of_retained {s : St}
    (h : ∀ pr ∈ s.m, needLocalCopy pr.2 = true) :
    cleanupLocal s = s := by
  unfold cleanupLocal
  have hfil : s.m.filter (fun pr => !(needLocalCopy pr.2)) = [] := by
    rw [List.filter_eq_nil_iff]
    intro pr hpr
    rw [h pr hpr]
    decide
  rw [hfil]
  rfl


/-- Remote for the C3 scenarios: one downloadable starred item A named
a.jpg; no other queries return anything. -/
def c3Remote : Remote :=
  ⟨[some [⟨"A", "a.jpg", none, true⟩]], [], [], fun _ => [],
   fun x => if x = "A" then some ⟨"A", "a.jpg", none, true⟩ else none,
   fun x => x == "A", fun _ => none⟩

/-- Configuration for the C3 scenarios: no albums configured. -/
def c3Cfg : Config := ⟨0, 0, []⟩

/-- A state in which the starred record A and the untagged record B share
the local path a.jpg. -/
def c3SharedState : St :=
  ⟨[("A", ⟨"a.jpg", "", true, false, [], none⟩),
    ("B", ⟨"a.jpg", "", false, false, [], none⟩)],
   [["a.jpg"]], c3Remote, [], []⟩

/-- C3 counterexample: starting from c3SharedState, the first run prunes B
and thereby deletes the file a.jpg that retained record A shares, so the
second run re-downloads it: the file system after the second run differs
from the one after the first, and the second run performs a download
mutation, refuting both conjuncts of the claim. -/
theorem C3_idempotence_counterexample :
    (runPipeline c3Cfg (runPipeline c3Cfg c3SharedState)).fs ≠
      (runPipeline c3Cfg c3SharedState).fs ∧
    Event.downloaded ["a.jpg"] ∈
      (runPipeline c3Cfg (runPipeline c3Cfg c3SharedState)).tr := by
  decide

/-- C3 (amended): a full run is a no-op — same mapping, same file system,
same remote, and an empty mutation trace — on every state that is coherent
with the remote: the window tag agrees with the stored creationTime, the
starred tag and each configured album's membership agree with that query's
completed result set (with current filenames), every retained record's file
is present at its computed path, every media file on disk is some record's
file, every placed record carries its folder's title and sits in its chosen
folder, and every record is retained. As stated for every starting state
the claim is false (see the counterexample): a prune of one record can
delete a path a retained record shares, which the next run re-downloads. -/
theorem C3_second_run_noop (cfg : Config) (t : St)
    (hn : NodupKeys t.m)
    (hrecheck : ∀ pr ∈ t.m, ∀ c, pr.2.creationTime = some c →
      pr.2.inLastNDays = decide (c ≥ cfg.cutoff))
    (hstarpos : ∀ it ∈ collectPages t.r.starredPages, ∃ rec, (it.id, rec) ∈ t.m ∧
      rec.filename = it.filename ∧ rec.isStarred = true)
    (hstarneg : ∀ pr ∈ t.m, pr.2.isStarred = true →
      ((collectPages t.r.starredPages).map (fun it => it.id)).contains pr.1 = true)
    (hwinpos : ∀ it ∈ collectPages t.r.lastNPages, ∃ rec, (it.id, rec) ∈ t.m ∧
      rec.filename = it.filename ∧ rec.inLastNDays = true)
    (halb : ∀ title ∈ cfg.albums, ∀ aid, resolveAlbumId t.r title = some aid →
      (∀ it ∈ collectPages (t.r.albumPages aid), ∃ rec, (it.id, rec) ∈ t.m ∧
        rec.filename = it.filename ∧ rec.albums.contains title = true) ∧
      (∀ pr ∈ t.m, pr.2.albums.contains title = true →
        ((collectPages (t.r.albumPages aid)).map (fun it => it.id)).contains pr.1 = true))
    (hfetched : ∀ pr ∈ t.m, needLocalCopy pr.2 = true →
      t.fs.contains (computeLocalPath pr.2) = true)
    (htracked : ∀ p ∈ t.fs, isMediaName (lastName p) = true →
      (t.m.map (fun pr => computeLocalPath pr.2)).contains p = true)
    (hmember : ∀ pr ∈ t.m, pr.2.localFolder ≠ "" →
      pr.2.albums.contains pr.2.localFolder = true)
    (hplace : ∀ pr ∈ t.m, chooseLocalFolder pr.2 = pr.2.localFolder)
    (hretained : ∀ pr ∈ t.m, needLocalCopy pr.2 = true) :
    (runPipeline cfg t).m = t.m ∧ (runPipeline cfg t).fs = t.fs ∧
    (runPipeline cfg t).r = t.r ∧ (runPipeline cfg t).tr = [] := by
  set t0 : St := ⟨t.m, t.fs, t.r, [], []⟩ with ht0
  have e1 : recheckInLastNDaysForExisting cfg t0 = t0 :=
    recheck_id_of_coherent hrecheck
  have e2 : gatherIsStarred t0 = t0 :=
    gatherIsStarred_id_of_coherent hn hstarpos hstarneg
  have e3 : gatherLastNDays t0 = t0 :=
    gatherLastNDays_id_of_coherent hn hwinpos
  set s4 := gatherAlbums cfg t0 with hs4
  have g4 := gatherAlbums_fold_coh t.m t.fs t.r [] hn cfg.albums t0 rfl rfl rfl rfl halb
  have g4m : s4.m = t.m := g4.1
  have g4fs : s4.fs = t.fs := g4.2.1
  have g4r : s4.r = t.r := g4.2.2.1
  have g4tr : s4.tr = [] := g4.2.2.2
  have e5 : downloadMissing s4 = s4 := by
    apply downloadMissing_id_of_fetched
    rw [g4m, g4fs]
    exact hfetched
  have e6 : uploadLocalNewFiles s4 = s4 := by
    apply uploadLocalNewFiles_id_of_coherent
    · rw [g4m, g4fs]
      exact htracked
    · rw [g4m]
      exact hmember
  have e7 : syncLocalFilePaths s4 = s4 := by
    apply syncLocalFilePaths_id_of_placed
    rw [g4m]
    exact hplace
  have e8 : cleanupLocal s4 = s4 := by
    apply cleanupLocal_id_of_retained
    rw [g4m]
    exact hretained
  have hfinal : runPipeline cfg t = s4 := by
    show cleanupLocal (syncLocalFilePaths (uploadLocalNewFiles (downloadMissing
      (gatherAlbums cfg (gatherLastNDays (gatherIsStarred
        (recheckInLastNDaysForExisting cfg t0))))))) = s4
    rw [e1, e2, e3, ← hs4, e5, e6, e7, e8]
  rw [hfinal]
  exact ⟨g4m, g4fs, g4r, g4tr⟩

/-- A state coherent with c3Remote: the starred record A with its file
present at the root. -/
def c3FixState : St :=
  ⟨[("A", ⟨"a.jpg", "", true, false, [], none⟩)], [["a.jpg"]], c3Remote, [], []⟩

/-- Witness for C3 on the concrete coherent state c3FixState: a further run
changes neither the mapping, the file system nor the remote, and records no
mutation events. -/
theorem C3_second_run_noop_witness :
    (runPipeline c3Cfg c3FixState).m = c3FixState.m ∧
    (runPipeline c3Cfg c3FixState).fs = c3FixState.fs ∧
    (runPipeline c3Cfg c3FixState).r = c3FixState.r ∧
    (runPipeline c3Cfg c3FixState).tr = [] :=
  C3_second_run_noop c3Cfg c3FixState (by decide)
    (by
      intro pr hpr c hc
      have hpr' : pr ∈ [("A", (⟨"a.jpg", "", true, false, [], none⟩ : PhotoRec))] := hpr
      rw [List.mem_singleton] at hpr'
      subst hpr'
      exact Option.noConfusion hc)
    (by
      intro it hit
      have hit' : it ∈ [(⟨"A", "a.jpg", none, true⟩ : Item)] := hit
      rw [List.mem_singleton] at hit'
      subst hit'
      exact ⟨⟨"a.jpg", "", true, false, [], none⟩, by decide, rfl, rfl⟩)
    (by decide)
    (fun it hit => absurd hit (List.not_mem_nil it))
    (fun title ht => absurd ht (List.not_mem_nil title))
    (by decide) (by decide) (by decide) (by decide) (by decide)

end PhotoSync
